import Mathlib

/-!
Ludo: the rule engine and turn loop of `src/Ludo.cpp`.

A shallow embedding of the game-rule part of `Ludo.cpp`:

* `BuildBoardAndPaths` (track, final lanes, entry indices, safe-cell flags),
* `SetupPlayers`, `IsSafe`, `SpawnFromHome`, `MovePieceBySteps`, `GetLegal`,
* one iteration of the `while (!WindowShouldClose())` loop of `main`
  (dice tick, turn handling for the human and the AI players, auto-finish).

Conventions of the embedding.

* C++ `int` is `Int`.  On well-formed states every sum the rules compute is
  below 50.  For arbitrary field values the embedding describes the code as
  long as `outerIdx + dice` and `finalIdx + dice` stay inside the 32-bit range
  (signed overflow is undefined in C++), so no wrap-around is modelled.
* `std::vector<Player>` and `std::vector<Piece>` are resized to four entries
  once, in `SetupPlayers`, and never change size: they are vectors of length 4
  indexed by `Fin 4`.
* `outerPath` and `finalPaths[p]` are lists.  A read `outerPath[k]` or
  `finalPaths[p][k]` is `Option`-valued (`outerAt`, `finalAt`): `none` stands
  for a read outside the container, which the C++ leaves undefined.  Functions
  performing such reads return `Option` and propagate `none`.
* The `MoveAnim` member of `Piece`, the float timers and all drawing are
  presentation only and are left out; what the frame loop reads from the
  window system, the clock and `rand()` is the explicit `FrameInput`.
-/

namespace Ludo

/-! ## Data model -/

/-- Grid size constant of the source. -/
def BOARD_N : Int := 15

/-- Grid coordinate (`struct Vec2i`). -/
structure Vec2i where
  r : Int
  c : Int
deriving DecidableEq, Repr

/-- Rule-bearing part of `struct Piece` (the animation member is omitted). -/
structure Piece where
  player : Nat
  inHome : Bool
  inFinal : Bool
  outerIdx : Int
  finalIdx : Int
deriving DecidableEq, Repr

/-- Rule-bearing part of `struct Player` (the colour is omitted). -/
structure Player where
  pieces : Mathlib.Vector Piece 4
  isAI : Bool
  finished : Bool
  finishPlace : Int
deriving DecidableEq

/-- Global variables of the program that the rules read or write. -/
structure Game where
  players : Mathlib.Vector Player 4
  currentPlayer : Fin 4
  rollResult : Int
  hasRolled : Bool
  diceRollingAnim : Bool
  diceFaceDuring : Int
  playersFinishedCount : Int
  nextFinishPlace : Int
deriving DecidableEq

/-- Result of `BuildBoardAndPaths`: the four globals it fills in. -/
structure Board where
  outerPath : List Vec2i
  startIndexFor : Mathlib.Vector Nat 4
  cellFlags : List (List Int)
  finalPaths : Mathlib.Vector (List Vec2i) 4

/-! ## Board topology -/

/-- Values of an ascending loop `for (x = a; x <= b; x++)`. -/
def upTo (a b : Nat) : List Int := (List.range' a (b + 1 - a)).map Int.ofNat

/-- Values of a descending loop `for (x = a; x >= b; x--)`. -/
def downTo (a b : Nat) : List Int := (upTo b a).reverse

/-- Single write `cellFlags[v.r][v.c] = x`. -/
def setFlag (flags : List (List Int)) (v : Vec2i) (x : Int) : List (List Int) :=
  flags.set v.r.toNat ((flags.getD v.r.toNat []).set v.c.toNat x)

/-- Embedding of `BuildBoardAndPaths`. -/
def BuildBoardAndPaths : Board :=
  let flags0 : List (List Int) := List.replicate 15 (List.replicate 15 0)
  let path : List Vec2i :=
    (upTo 3 11).map (fun c => ⟨1, c⟩)        -- across top
    ++ (upTo 2 6).map (fun r => ⟨r, 11⟩)     -- down right
    ++ (downTo 10 6).map (fun c => ⟨6, c⟩)   -- left mid
    ++ (upTo 7 11).map (fun r => ⟨r, 6⟩)     -- down center
    ++ (downTo 5 1).map (fun c => ⟨11, c⟩)   -- left bottom
    ++ (downTo 10 6).map (fun r => ⟨r, 1⟩)   -- up left
    ++ (upTo 2 6).map (fun c => ⟨6, c⟩)      -- right mid
    ++ (downTo 5 2).map (fun r => ⟨r, 6⟩)    -- up center
  let starts : Mathlib.Vector Nat 4 := ⟨[0, 11, 23, 35], rfl⟩
  let flags1 : List (List Int) :=
    starts.toList.foldl (fun fl s => setFlag fl (path.getD s ⟨0, 0⟩) 2) flags0
  let flags2 := setFlag flags1 ⟨6, 6⟩ 2
  { outerPath := path
    startIndexFor := starts
    cellFlags := flags2
    finalPaths := ⟨[ [⟨5,6⟩, ⟨4,6⟩, ⟨3,6⟩, ⟨2,6⟩, ⟨1,6⟩, ⟨0,6⟩],
                     [⟨6,5⟩, ⟨6,4⟩, ⟨6,3⟩, ⟨6,2⟩, ⟨6,1⟩, ⟨6,0⟩],
                     [⟨7,6⟩, ⟨8,6⟩, ⟨9,6⟩, ⟨10,6⟩, ⟨11,6⟩, ⟨12,6⟩],
                     [⟨6,7⟩, ⟨6,8⟩, ⟨6,9⟩, ⟨6,10⟩, ⟨6,11⟩, ⟨6,12⟩] ], rfl⟩ }

/-- Global `outerPath` after `BuildBoardAndPaths`. -/
def outerPath : List Vec2i := BuildBoardAndPaths.outerPath

/-- Global `startIndexFor` after `BuildBoardAndPaths`. -/
def startIndexFor (p : Fin 4) : Nat := BuildBoardAndPaths.startIndexFor.get p

/-- Global `cellFlags` after `BuildBoardAndPaths`. -/
def cellFlags : List (List Int) := BuildBoardAndPaths.cellFlags

/-- Global `finalPaths` after `BuildBoardAndPaths`. -/
def finalPaths (p : Fin 4) : List Vec2i := BuildBoardAndPaths.finalPaths.get p

/-- Track length `(int)outerPath.size()`. -/
def L : Int := outerPath.length

/-- Read `outerPath[k]`; `none` when `k` is outside the container. -/
def outerAt (k : Int) : Option Vec2i :=
  if 0 ≤ k then outerPath[k.toNat]? else none

/-- Read `finalPaths[p][k]`; `none` when `k` is outside the container. -/
def finalAt (p : Fin 4) (k : Int) : Option Vec2i :=
  if 0 ≤ k then (finalPaths p)[k.toNat]? else none

/-- Embedding of `IsSafe`. -/
def IsSafe (v : Vec2i) : Bool :=
  if v.r < 0 ∨ v.r ≥ BOARD_N ∨ v.c < 0 ∨ v.c ≥ BOARD_N then false
  else (cellFlags.getD v.r.toNat []).getD v.c.toNat 0 == 2

/-! ## Players and pieces -/

/-- Piece as initialised by `SetupPlayers` and as reset by a capture. -/
def homePiece (p : Nat) : Piece :=
  { player := p, inHome := true, inFinal := false, outerIdx := -1, finalIdx := -1 }

/-- Embedding of `SetupPlayers` (players 0..2 are AI, player 3 is the human). -/
def SetupPlayers : Game :=
  { players := Mathlib.Vector.ofFn fun p =>
      { pieces := Mathlib.Vector.ofFn fun _ => homePiece p.val
        isAI := decide (p.val < 3)
        finished := false
        finishPlace := 0 }
    currentPlayer := 3
    rollResult := 0
    hasRolled := false
    diceRollingAnim := false
    diceFaceDuring := 1
    playersFinishedCount := 0
    nextFinishPlace := 1 }

/-- Reference `players[p].pieces[i]`. -/
def Game.piece (g : Game) (p i : Fin 4) : Piece := ((g.players.get p).pieces.get i)

/-- Assignment through the reference `players[p].pieces[i]`. -/
def Game.setPiece (g : Game) (p i : Fin 4) (pc : Piece) : Game :=
  { g with players :=
      g.players.set p { g.players.get p with pieces := (g.players.get p).pieces.set i pc } }

/-- The four assignments of `SpawnFromHome` to the piece:
`inHome = false; inFinal = false; outerIdx = startIndexFor[player]; finalIdx = -1`. -/
def spawned (pc : Piece) (player : Fin 4) : Piece :=
  { pc with inHome := false, inFinal := false,
            outerIdx := (startIndexFor player : Int), finalIdx := -1 }

/-- Embedding of `SpawnFromHome`; the read of `outerPath` is the start cell
used for the animation target. -/
def SpawnFromHome (g : Game) (player pieceIdx : Fin 4) : Option Game :=
  let pc1 := spawned (g.piece player pieceIdx) player
  match outerAt pc1.outerIdx with
  | none => none
  | some _ => some (g.setPiece player pieceIdx pc1)

/-- The block that appears twice in `MovePieceBySteps` (source lines 213-220 and
248-255): scan the player's pieces for `inFinal && finalIdx == 5` and, when all
pass and the player is not yet finished, record the finish. -/
def finishCheck (g : Game) (player : Fin 4) : Game :=
  let pl := g.players.get player
  let allDone := pl.pieces.toList.all fun q => q.inFinal && q.finalIdx == 5
  if allDone && !pl.finished then
    { g with
        players := g.players.set player
          { pl with finished := true, finishPlace := g.nextFinishPlace }
        nextFinishPlace := g.nextFinishPlace + 1
        playersFinishedCount := g.playersFinishedCount + 1 }
  else g

/-- Body of the capture loop applied to one opposing piece. -/
def captureOne (ni : Int) (opp : Piece) : Piece :=
  if !opp.inHome && !opp.inFinal && opp.outerIdx == ni then
    { opp with inHome := true, inFinal := false, outerIdx := -1, finalIdx := -1 }
  else opp

/-- The capture loops of `MovePieceBySteps` (source lines 231-237); `ni` is the
moved piece's new `outerIdx`, which the loops never modify since `op != player`. -/
def capture (g : Game) (player : Fin 4) (ni : Int) : Game :=
  { g with players := Mathlib.Vector.ofFn fun op =>
      if op ≠ player then
        { g.players.get op with pieces := (g.players.get op).pieces.map (captureOne ni) }
      else g.players.get op }

/-- Embedding of `MovePieceBySteps`: the returned `Bool` is the C++ return value,
the `Game` is the state after the call. -/
def MovePieceBySteps (g : Game) (player idx : Fin 4) (steps : Int) : Option (Bool × Game) :=
  let pc := g.piece player idx
  if pc.inHome then
    if steps = 6 then (SpawnFromHome g player idx).map fun g1 => (true, g1)
    else some (false, g)
  else if pc.inFinal then
    let nf := pc.finalIdx + steps
    if nf > 5 then some (false, g)
    else
      match finalAt player nf with
      | none => none
      | some _ =>
        let g1 := g.setPiece player idx { pc with finalIdx := nf }
        some (true, if nf = 5 then finishCheck g1 player else g1)
  else
    let ni := pc.outerIdx + steps
    if ni < L then
      match outerAt ni with
      | none => none
      | some dst =>
        let g1 := g.setPiece player idx { pc with outerIdx := ni }
        some (true, if !IsSafe dst then capture g1 player ni else g1)
    else
      let excess := ni - (L - 1)
      if excess ≥ 1 ∧ excess ≤ 6 then
        match finalAt player (excess - 1) with
        | none => none
        | some _ =>
          let g1 := g.setPiece player idx
            { pc with inFinal := true, outerIdx := -1, finalIdx := excess - 1 }
          some (true, if excess - 1 = 5 then finishCheck g1 player else g1)
      else some (false, g)

/-- Test of the loop body of `GetLegal` for piece `i`. -/
def legalPiece (g : Game) (player : Fin 4) (dice : Int) (i : Fin 4) : Bool :=
  let pc := g.piece player i
  if pc.inHome then decide (dice = 6)
  else if pc.inFinal then decide (dice ≤ 5 - pc.finalIdx)
  else
    let ni := pc.outerIdx + dice
    decide (ni < L) || decide (ni - (L - 1) ≤ 6)

/-- Embedding of `GetLegal`: the indices `i = 0, 1, 2, 3` pushed in loop order. -/
def GetLegal (g : Game) (player : Fin 4) (dice : Int) : List (Fin 4) :=
  (List.finRange 4).filter (legalPiece g player dice)

/-! ## The frame loop of `main` -/

/-- What one iteration of the frame loop reads from the clock, the window
system and `rand()`.  The float timers are abstracted to the outcome of the
comparisons made on them. -/
structure FrameInput where
  /-- Outcome of `diceAnimTime >= diceAnimDuration` after adding `dt`. -/
  animDone : Bool
  /-- Outcome of `fmod(globalTime, 0.08f) < 0.04f`. -/
  flicker : Bool
  /-- Value of `rand() % 6` drawn in the flicker branch. -/
  flickerFace : Fin 6
  /-- Outcome of `IsMouseButtonReleased(MOUSE_LEFT_BUTTON)`. -/
  mouseReleased : Bool
  /-- Outcome of `CheckCollisionPointRec(mouse, rollBtn)`. -/
  onRollBtn : Bool
  /-- Outcome of `CheckCollisionPointRec(mouse, r)` for the rectangle of piece `idx`. -/
  hit : Fin 4 → Bool
  /-- Outcome of `IsKeyPressed(KEY_SPACE)`. -/
  spacePressed : Bool
  /-- Value of `rand() % 6` drawn when a roll is started. -/
  rollFace : Fin 6
  /-- Outcome of `aiT >= 0.6f` after adding `dt`. -/
  aiTick : Bool
  /-- Value of `rand() % 3` drawn while scoring candidate `idx`. -/
  aiRand : Fin 4 → Fin 3

/-- Dice animation tick (source lines 303-312). -/
def diceTick (inp : FrameInput) (g : Game) : Game :=
  if g.diceRollingAnim then
    if inp.animDone then
      { g with diceRollingAnim := false, rollResult := g.diceFaceDuring, hasRolled := true }
    else if inp.flicker then
      { g with diceFaceDuring := (inp.flickerFace.val : Int) + 1 }
    else g
  else g

/-- Start of a roll: `diceRollingAnim = true; diceFaceDuring = (rand() % 6) + 1`. -/
def startRoll (inp : FrameInput) (g : Game) : Game :=
  { g with diceRollingAnim := true, diceFaceDuring := (inp.rollFace.val : Int) + 1 }

/-- The loop `while (players[nxt].finished) nxt = (nxt + 1) % 4;` run for at most
`fuel` tests of its condition; `none` when the condition held at every test. -/
def skipFinished (g : Game) : Nat → Fin 4 → Option (Fin 4)
  | 0, _ => none
  | fuel + 1, nxt =>
    if (g.players.get nxt).finished then skipFinished g fuel (nxt + 1) else some nxt

/-- Turn advance: `nxt = (currentPlayer + 1) % 4`, skip finished players, assign.
Four tests visit all four players, so `none` here means that the C++ loop does
not terminate (see `all_finished_of_skipFinished_none` and
`skipFinished_none_of_all_finished`). -/
def advanceTurn (g : Game) : Option Game :=
  (skipFinished g 4 (g.currentPlayer + 1)).map fun nxt => { g with currentPlayer := nxt }

/-- Common tail of a consumed roll: `extra = (rollResult == 6); hasRolled = false;
rollResult = 0; if (!extra) advance`. -/
def consumeRoll (g : Game) : Option Game :=
  let extra := g.rollResult == 6
  let g1 := { g with hasRolled := false, rollResult := 0 }
  if !extra then advanceTurn g1 else some g1

/-- Human selection branch (source lines 324-350). -/
def humanSelect (inp : FrameInput) (g : Game) : Option Game :=
  let legal := GetLegal g g.currentPlayer g.rollResult
  if !legal.isEmpty then
    match legal.find? inp.hit with
    | none => some g
    | some idx =>
      match MovePieceBySteps g g.currentPlayer idx g.rollResult with
      | none => none
      | some (ok, g1) => if ok then consumeRoll g1 else some g1
  else
    advanceTurn { g with hasRolled := false, rollResult := 0 }

/-- Score the AI gives to candidate `idx` (source lines 373-384). -/
def aiScore (inp : FrameInput) (g : Game) (idx : Fin 4) : Option Int :=
  let pc := g.piece g.currentPlayer idx
  let s1 : Int := if pc.inHome && g.rollResult == 6 then 10 else 0
  let s2 : Int := if pc.inFinal && pc.finalIdx + g.rollResult == 5 then 50 else 0
  let s3 : Option Int :=
    if !pc.inHome && !pc.inFinal then
      let ni := pc.outerIdx + g.rollResult
      if ni < L then
        match outerAt ni with
        | none => none
        | some dst => some (if !IsSafe dst then 20 else 0)
      else some 0
    else some 0
  s3.map fun s => s1 + s2 + s + ((inp.aiRand idx).val : Int)

/-- The AI choice loop: `pick = legal[0], best = -999`, then the first strictly
better score wins. -/
def aiPick (inp : FrameInput) (g : Game) (legal : List (Fin 4)) (first : Fin 4) :
    Option (Fin 4) :=
  (legal.foldlM
    (fun (acc : Fin 4 × Int) idx =>
      (aiScore inp g idx).map fun score => if score > acc.2 then (idx, score) else acc)
    (first, -999)).map Prod.fst

/-- AI selection branch (source lines 368-396). -/
def aiSelect (inp : FrameInput) (g : Game) : Option Game :=
  let moved : Option Game :=
    match GetLegal g g.currentPlayer g.rollResult with
    | [] => some g
    | first :: rest =>
      (aiPick inp g (first :: rest) first).bind fun pick =>
        (MovePieceBySteps g g.currentPlayer pick g.rollResult).map Prod.snd
  moved.bind consumeRoll

/-- Turn handling (source lines 317-398). -/
def turnHandling (inp : FrameInput) (g : Game) : Option Game :=
  if !(g.players.get g.currentPlayer).isAI then
    let afterMouse : Option Game :=
      if inp.mouseReleased then
        if !g.hasRolled && inp.onRollBtn then some (startRoll inp g)
        else if g.hasRolled then humanSelect inp g
        else some g
      else some g
    afterMouse.map fun g1 =>
      if inp.spacePressed && !g1.hasRolled && !g1.diceRollingAnim then startRoll inp g1 else g1
  else if inp.aiTick then
    if !g.hasRolled && !g.diceRollingAnim then some (startRoll inp g)
    else if g.hasRolled then aiSelect inp g
    else some g
  else some g

/-- Body of the auto-finish loop for player `p`. -/
def autoFinishOne (g : Game) (p : Fin 4) : Game :=
  if !(g.players.get p).finished then
    { g with
        players := g.players.set p
          { g.players.get p with finished := true, finishPlace := g.nextFinishPlace }
        nextFinishPlace := g.nextFinishPlace + 1 }
  else g

/-- Auto-finish step (source lines 400-405). -/
def autoFinish (g : Game) : Game :=
  if g.playersFinishedCount ≥ 3 then (List.finRange 4).foldl autoFinishOne g else g

/-- One iteration of the frame loop, rules only: dice tick, turn handling,
auto-finish.  `none`: the iteration does not complete (a read outside a
container, or a turn advance that does not terminate). -/
def frame (inp : FrameInput) (g : Game) : Option Game :=
  (turnHandling inp (diceTick inp g)).map autoFinish

/-- Run the frame loop on a list of inputs. -/
def runFrames : List FrameInput → Game → Option Game
  | [], g => some g
  | inp :: rest, g => (frame inp g).bind (runFrames rest)

/-- States at the top of the frame loop, from `SetupPlayers` on. -/
inductive Reachable : Game → Prop
  | init : Reachable SetupPlayers
  | step {g g1 : Game} (inp : FrameInput) : Reachable g → frame inp g = some g1 → Reachable g1

/-- States obtained from `SetupPlayers` by calls of `MovePieceBySteps` with a die
value in 1..6 (accepted or rejected). -/
inductive MoveReachable : Game → Prop
  | init : MoveReachable SetupPlayers
  | move {g g1 : Game} (p i : Fin 4) (d : Int) (b : Bool) :
      MoveReachable g → 1 ≤ d → d ≤ 6 → MovePieceBySteps g p i d = some (b, g1) →
      MoveReachable g1

/-! ## Locations and well-formedness -/

/-- Piece is AtHome: the first test every reader of a piece makes. -/
def Piece.atHome (pc : Piece) : Prop := pc.inHome = true

/-- Piece is InFinalLane at index `f` (second test: not `inHome`, then `inFinal`). -/
def Piece.inLane (pc : Piece) (f : Int) : Prop :=
  pc.inHome = false ∧ pc.inFinal = true ∧ pc.finalIdx = f

/-- Piece is OnTrack at index `t` (neither flag set). -/
def Piece.onTrack (pc : Piece) (t : Int) : Prop :=
  pc.inHome = false ∧ pc.inFinal = false ∧ pc.outerIdx = t

instance (pc : Piece) : Decidable pc.atHome := by unfold Piece.atHome; infer_instance

instance (pc : Piece) (f : Int) : Decidable (pc.inLane f) := by
  unfold Piece.inLane; infer_instance

instance (pc : Piece) (t : Int) : Decidable (pc.onTrack t) := by
  unfold Piece.onTrack; infer_instance

/-- Location invariant of one piece: the flags are exclusive and the two indices
hold the sentinel -1 except the one matching the location, which is in range. -/
def pieceOK (pc : Piece) : Prop :=
  ¬(pc.inHome = true ∧ pc.inFinal = true) ∧
  (pc.inHome = true → pc.outerIdx = -1 ∧ pc.finalIdx = -1) ∧
  (pc.inFinal = true → pc.outerIdx = -1 ∧ 0 ≤ pc.finalIdx ∧ pc.finalIdx ≤ 5) ∧
  (pc.inHome = false → pc.inFinal = false →
    0 ≤ pc.outerIdx ∧ pc.outerIdx ≤ 42 ∧ pc.finalIdx = -1)

instance (pc : Piece) : Decidable (pieceOK pc) := by unfold pieceOK; infer_instance

/-- Well-formed game state: every one of the 16 pieces satisfies `pieceOK`. -/
def WellFormed (g : Game) : Prop := ∀ p i : Fin 4, pieceOK (g.piece p i)

instance (g : Game) : Decidable (WellFormed g) := by unfold WellFormed; infer_instance

/-! ## Finish bookkeeping -/

/-- Player `p` has just been recorded as finished: the three assignments
`finished = true; finishPlace = nextFinishPlace++; playersFinishedCount++`. -/
def FinishRecorded (g g1 : Game) (p : Fin 4) : Prop :=
  (g1.players.get p).finished = true ∧
  (g1.players.get p).finishPlace = g.nextFinishPlace ∧
  g1.nextFinishPlace = g.nextFinishPlace + 1 ∧
  g1.playersFinishedCount = g.playersFinishedCount + 1

/-- Nothing about finishing changed for player `p` nor in the two counters. -/
def FinishUntouched (g g1 : Game) (p : Fin 4) : Prop :=
  (g1.players.get p).finished = (g.players.get p).finished ∧
  (g1.players.get p).finishPlace = (g.players.get p).finishPlace ∧
  g1.nextFinishPlace = g.nextFinishPlace ∧
  g1.playersFinishedCount = g.playersFinishedCount

/-- The other players keep `finished` and `finishPlace`. -/
def OthersUntouched (g g1 : Game) (p : Fin 4) : Prop :=
  ∀ q : Fin 4, q ≠ p →
    (g1.players.get q).finished = (g.players.get q).finished ∧
    (g1.players.get q).finishPlace = (g.players.get q).finishPlace

/-! ## Example positions -/

/-- Piece of player `p` on the track at index `t`. -/
def trackPiece (p : Nat) (t : Int) : Piece :=
  { player := p, inHome := false, inFinal := false, outerIdx := t, finalIdx := -1 }

/-- Piece of player `p` in its final lane at index `f`. -/
def lanePiece (p : Nat) (f : Int) : Piece :=
  { player := p, inHome := false, inFinal := true, outerIdx := -1, finalIdx := f }

/-- Unfinished player with the given four pieces. -/
def mkPlayer (ai : Bool) (a b c d : Piece) : Player :=
  { pieces := ⟨[a, b, c, d], rfl⟩, isAI := ai, finished := false, finishPlace := 0 }

/-- Player `p` with all four pieces at home. -/
def homePlayer (p : Nat) : Player :=
  mkPlayer (decide (p < 3)) (homePiece p) (homePiece p) (homePiece p) (homePiece p)

/-- Game with the given four players, no roll pending, nobody finished, player 3 to play. -/
def mkGame (p0 p1 p2 p3 : Player) : Game :=
  { players := ⟨[p0, p1, p2, p3], rfl⟩
    currentPlayer := 3
    rollResult := 0
    hasRolled := false
    diceRollingAnim := false
    diceFaceDuring := 1
    playersFinishedCount := 0
    nextFinishPlace := 1 }

/-- Position of the first scenario of C1: player 0 has piece 0 at home and pieces
1, 2, 3 in the final lane at index 4. -/
def legalEx : Game :=
  mkGame (mkPlayer true (homePiece 0) (lanePiece 0 4) (lanePiece 0 4) (lanePiece 0 4))
    (homePlayer 1) (homePlayer 2) (homePlayer 3)

/-- Position with player 0's piece 0 in the final lane at index 3. -/
def laneEx : Game :=
  mkGame (mkPlayer true (lanePiece 0 3) (homePiece 0) (homePiece 0) (homePiece 0))
    (homePlayer 1) (homePlayer 2) (homePlayer 3)

/-- Position of the scenario of C2: pieces of players 0 and 1 on the track at
index 7, a piece of player 2 at index 4, a piece of player 3 at index 9. -/
def captureEx : Game :=
  mkGame (mkPlayer true (trackPiece 0 7) (homePiece 0) (lanePiece 0 2) (trackPiece 0 8))
    (mkPlayer true (trackPiece 1 7) (homePiece 1) (homePiece 1) (homePiece 1))
    (mkPlayer true (trackPiece 2 4) (trackPiece 2 7) (homePiece 2) (homePiece 2))
    (mkPlayer false (trackPiece 3 9) (homePiece 3) (homePiece 3) (homePiece 3))

/-- Position of the scenario of C3: player 0's piece 0 on the track at index 40. -/
def enterEx : Game :=
  mkGame (mkPlayer true (trackPiece 0 40) (homePiece 0) (homePiece 0) (homePiece 0))
    (homePlayer 1) (homePlayer 2) (homePlayer 3)

/-- Position in which player 1 has three pieces at final-lane index 5 and the
fourth at index 3. -/
def finishEx : Game :=
  mkGame (homePlayer 0)
    (mkPlayer true (lanePiece 1 5) (lanePiece 1 5) (lanePiece 1 3) (lanePiece 1 5))
    (homePlayer 2) (homePlayer 3)

/-! ## Repeated moves of one piece -/

/-- Successive calls `MovePieceBySteps(p, i, d)` for the dice of the list, in
order; the first component is the total advance, i.e. the sum of the dice of the
accepted calls. -/
def advancePiece (p i : Fin 4) : List Int → Game → Option (Int × Game)
  | [], g => some (0, g)
  | d :: ds, g =>
    match MovePieceBySteps g p i d with
    | none => none
    | some (b, g1) =>
      (advancePiece p i ds g1).map fun r => ((if b then d else 0) + r.1, r.2)

/-- Distance covered on the way track then final lane, counted from track index 0:
the track index of a piece on the track, `43 + finalIdx` in the final lane. -/
def progress (pc : Piece) : Int :=
  if pc.inFinal then 43 + pc.finalIdx else pc.outerIdx

/-- Spawn piece `(p, i)` with a 6 and then advance it by the dice of the list;
the first component is the total advance since spawning. -/
def spawnAndAdvance (p i : Fin 4) (ds : List Int) (g : Game) : Option (Int × Game) :=
  match MovePieceBySteps g p i 6 with
  | some (true, g0) => advancePiece p i ds g0
  | _ => none

/-! ## Finish ranks -/

/-- Number of players with `finished == true`. -/
def finishedCount (g : Game) : Nat :=
  (Finset.univ.filter fun p : Fin 4 => (g.players.get p).finished = true).card

/-- The finish ranks are consistent: unfinished players have `finishPlace == 0`,
the finished ones carry the ranks 1..k, each exactly once, and
`nextFinishPlace == k + 1`, where k is the number of finished players. -/
def RankInv (g : Game) : Prop :=
  (∀ p : Fin 4, (g.players.get p).finished = false → (g.players.get p).finishPlace = 0) ∧
  (∀ p : Fin 4, (g.players.get p).finished = true →
    1 ≤ (g.players.get p).finishPlace ∧ (g.players.get p).finishPlace ≤ finishedCount g) ∧
  (∀ p q : Fin 4, (g.players.get p).finished = true → (g.players.get q).finished = true →
    (g.players.get p).finishPlace = (g.players.get q).finishPlace → p = q) ∧
  (∀ n : Int, 1 ≤ n → n ≤ finishedCount g →
    ∃ p : Fin 4, (g.players.get p).finished = true ∧ (g.players.get p).finishPlace = n) ∧
  g.nextFinishPlace = finishedCount g + 1

/-- Ranks are handed out in finishing order: from `g` to `g1` a finished player
stays finished with the same rank, a player who becomes finished gets a rank that
is at least the old `nextFinishPlace` (so above every rank given before), and
`nextFinishPlace` does not decrease. -/
def RankStep (g g1 : Game) : Prop :=
  (∀ p : Fin 4, (g.players.get p).finished = true →
    (g1.players.get p).finished = true ∧
    (g1.players.get p).finishPlace = (g.players.get p).finishPlace) ∧
  (∀ p : Fin 4, (g.players.get p).finished = false → (g1.players.get p).finished = true →
    g.nextFinishPlace ≤ (g1.players.get p).finishPlace ∧
    (g1.players.get p).finishPlace < g1.nextFinishPlace) ∧
  g.nextFinishPlace ≤ g1.nextFinishPlace

/-- Relation between `playersFinishedCount` and the number of finished players
after turn handling, before the auto-finish step. -/
def CountMid (g : Game) : Prop :=
  (g.playersFinishedCount = finishedCount g ∧ finishedCount g ≤ 3) ∨
  (g.playersFinishedCount = 3 ∧ finishedCount g = 4)

/-- Relation between `playersFinishedCount` and the number of finished players at
the top of the frame loop. -/
def CountTop (g : Game) : Prop :=
  (g.playersFinishedCount = finishedCount g ∧ finishedCount g ≤ 2) ∨
  (g.playersFinishedCount = 3 ∧ finishedCount g = 4)

/-- The finish bookkeeping of `g1` is that of `g`. -/
def SameFinish (g g1 : Game) : Prop :=
  (∀ q : Fin 4, (g1.players.get q).finished = (g.players.get q).finished ∧
    (g1.players.get q).finishPlace = (g.players.get q).finishPlace) ∧
  g1.nextFinishPlace = g.nextFinishPlace ∧
  g1.playersFinishedCount = g.playersFinishedCount

/-- Exactly player `p`, unfinished in `g`, has been recorded as finished in `g1`. -/
def OneFinished (g g1 : Game) (p : Fin 4) : Prop :=
  (g.players.get p).finished = false ∧ OthersUntouched g g1 p ∧
  (g1.players.get p).finished = true ∧
  (g1.players.get p).finishPlace = g.nextFinishPlace ∧
  g1.nextFinishPlace = g.nextFinishPlace + 1

/-- Effect of turn handling on the finish bookkeeping: nothing, or one player
recorded as finished by `MovePieceBySteps`. -/
def TurnFinish (g g1 : Game) : Prop :=
  SameFinish g g1 ∨
  ∃ p : Fin 4, OneFinished g g1 p ∧ g1.playersFinishedCount = g.playersFinishedCount + 1

/-- Invariant of the frame loop needed to run the rules: the pieces are well
formed, the die face is in 1..6, and so is a pending roll. -/
def TurnInv (g : Game) : Prop :=
  WellFormed g ∧ 1 ≤ g.diceFaceDuring ∧ g.diceFaceDuring ≤ 6 ∧
  (g.hasRolled = true → 1 ≤ g.rollResult ∧ g.rollResult ≤ 6)

/-! ## Frame inputs and two plays

The plays list only the frames in which a key press, a click or a timer matters
to the rules: the frame that starts a roll, the frame in which the dice animation
reaches its duration, and the frame of the selection.  Every click of the human
is over a board cell that holds exactly one of the human's legal pieces, so the
click hits that piece and no other; the AI players roll a 1 with all pieces at
home and have no legal piece. -/

/-- Frame in which nothing is pressed and no timer fires. -/
def idleInput : FrameInput :=
  { animDone := false, flicker := false, flickerFace := 0, mouseReleased := false,
    onRollBtn := false, hit := fun _ => false, spacePressed := false, rollFace := 0,
    aiTick := false, aiRand := fun _ => 0 }

/-- The human presses SPACE; the roll that starts will show die value `d`. -/
def pressSpace (d : Nat) : FrameInput :=
  { idleInput with spacePressed := true, rollFace := Fin.ofNat (d - 1) }

/-- The dice animation reaches its duration. -/
def animEnds : FrameInput := { idleInput with animDone := true }

/-- The human releases the mouse button over piece `i` (and over nothing else). -/
def clickPiece (i : Fin 4) : FrameInput :=
  { idleInput with mouseReleased := true, hit := fun j => decide (j = i) }

/-- The human releases the mouse button away from the roll button and the pieces. -/
def clickNowhere : FrameInput := { idleInput with mouseReleased := true }

/-- The AI timer fires; if a roll starts it will show die value `d`. -/
def aiTicks (d : Nat) : FrameInput :=
  { idleInput with aiTick := true, rollFace := Fin.ofNat (d - 1) }

/-- Frames of a human turn: roll `d`, then click piece `i`. -/
def humanTurn (d : Nat) (i : Fin 4) : List FrameInput :=
  [pressSpace d, animEnds, clickPiece i]

/-- Frames of an AI turn with die value `d`: start the roll, let it end, act. -/
def aiTurn (d : Nat) : List FrameInput := [aiTicks d, animEnds, aiTicks d]

/-- The three AI players each roll a 1. -/
def aiRound : List FrameInput := aiTurn 1 ++ aiTurn 1 ++ aiTurn 1

/-- The human (player 3) brings piece `i` from home into the final lane at index 0
with the rolls 6, 6, 2, then the three AI players each roll a 1 and pass. -/
def laneCycle (i : Fin 4) : List FrameInput :=
  humanTurn 6 i ++ humanTurn 6 i ++ humanTurn 2 i ++ aiRound

/-- Play that puts all four human pieces into the final lane at index 0 and then
lets the human roll a 6. -/
def sixNoMoveTrace : List FrameInput :=
  laneCycle 0 ++ laneCycle 1 ++ laneCycle 2 ++ laneCycle 3 ++ [pressSpace 6, animEnds]

/-- The human brings piece `i` from home to track index 42 with the rolls 6, 6, 1,
the AI players pass, and the human rolls a 6 that takes the piece to final-lane
index 5. -/
def homeCycle (i : Fin 4) : List FrameInput :=
  humanTurn 6 i ++ humanTurn 6 i ++ humanTurn 1 i ++ aiRound ++ humanTurn 6 i

/-- Play in which the human finishes, the last move being made with a 6. -/
def finishOnSixTrace : List FrameInput :=
  homeCycle 0 ++ homeCycle 1 ++ homeCycle 2 ++ homeCycle 3

/-! ## Grid adjacency along the track -/

/-- Two cells are grid-adjacent: they agree in one of row and column and differ
by exactly 1 in the other (they share an edge of the grid). -/
def gridAdjacent (a b : Vec2i) : Prop :=
  (a.r = b.r ∧ (a.c - b.c = 1 ∨ b.c - a.c = 1)) ∨
  (a.c = b.c ∧ (a.r - b.r = 1 ∨ b.r - a.r = 1))

instance (a b : Vec2i) : Decidable (gridAdjacent a b) := by
  unfold gridAdjacent; infer_instance

/-- The cells `outerPath[i]` and `outerPath[j]` exist and are grid-adjacent. -/
def adjacentAt (i j : Nat) : Prop :=
  match outerPath[i]?, outerPath[j]? with
  | some a, some b => gridAdjacent a b
  | _, _ => False

instance (i j : Nat) : Decidable (adjacentAt i j) := by
  unfold adjacentAt; split <;> infer_instance

/-! ## A play that finishes all four players

In this play every AI choice is the one the scoring loop makes when each
`rand() % 3` is 0: a track piece landing on an unsafe track cell (score 20) is
preferred to a spawn (score 10), a spawn to a move onto a safe cell or into the
final lane from the track (score 0), and among equal scores the piece with the
smallest index is taken. -/

/-- The AI player on turn rolls a 6 `n` times in a row and acts each time. -/
def aiSixes : Nat → List FrameInput
  | 0 => []
  | n + 1 => aiTurn 6 ++ aiSixes n

/-- The AI player on turn rolls a 1 and moves, the other unfinished AI player
rolls a 1 and passes, then the first one rolls three 6s. -/
def aiHomeStretch : List FrameInput := aiTurn 1 ++ aiTurn 1 ++ aiSixes 3

/-- Play after which all four players are finished: the human finishes first
(`finishOnSixTrace`) and passes with a 1; player 0 brings its four pieces home
with thirty-six 6s and passes with a 1; player 1 passes with a 1; player 2 spawns
its pieces and moves them to index 29 with eight 6s and then brings them home one
by one (1, 6, 6, 6 each); its last move makes it the third finished player and
the auto-finish step marks player 1. -/
def allFinishedTrace : List FrameInput :=
  finishOnSixTrace ++ [pressSpace 1, animEnds, clickNowhere] ++
  aiSixes 36 ++ aiTurn 1 ++ aiTurn 1 ++
  aiSixes 8 ++ aiHomeStretch ++ aiHomeStretch ++ aiHomeStretch ++ aiHomeStretch

/-- The play `allFinishedTrace` followed by player 2 rolling a 1. -/
def stuckTrace : List FrameInput := allFinishedTrace ++ [aiTicks 1, animEnds]

/-! ## Basic facts about the board and about piece access -/

theorem outerPath_length : outerPath.length = 43 := by decide

theorem L_eq : L = 43 := by decide

theorem finalPaths_length (p : Fin 4) : (finalPaths p).length = 6 := by
  revert p; decide

theorem startIndexFor_lt (p : Fin 4) : startIndexFor p < 43 := by
  revert p; decide

theorem outerAt_some {k : Int} (h0 : 0 ≤ k) (h1 : k < 43) : ∃ c, outerAt k = some c := by
  have hk : k.toNat < outerPath.length := by
    rw [outerPath_length]; omega
  exact ⟨outerPath[k.toNat], by simp [outerAt, h0, List.getElem?_eq_getElem hk]⟩

theorem finalAt_some (p : Fin 4) {k : Int} (h0 : 0 ≤ k) (h1 : k ≤ 5) :
    ∃ c, finalAt p k = some c := by
  have hk : k.toNat < (finalPaths p).length := by
    rw [finalPaths_length]; omega
  exact ⟨(finalPaths p)[k.toNat], by simp [finalAt, h0, List.getElem?_eq_getElem hk]⟩

theorem piece_setPiece (g : Game) (p i q j : Fin 4) (pc : Piece) :
    (g.setPiece p i pc).piece q j = if q = p ∧ j = i then pc else g.piece q j := by
  unfold Game.setPiece Game.piece
  by_cases hq : q = p
  · subst hq
    by_cases hj : j = i
    · subst hj; simp [Mathlib.Vector.get_set_same]
    · simp [Mathlib.Vector.get_set_same, Mathlib.Vector.get_set_of_ne (Ne.symm hj), hj]
  · simp [Mathlib.Vector.get_set_of_ne (Ne.symm hq), hq]

theorem piece_finishCheck (g : Game) (p q j : Fin 4) :
    (finishCheck g p).piece q j = g.piece q j := by
  unfold finishCheck Game.piece
  dsimp only
  split
  · by_cases hq : q = p
    · subst hq; simp [Mathlib.Vector.get_set_same]
    · simp [Mathlib.Vector.get_set_of_ne (Ne.symm hq)]
  · rfl

theorem piece_capture (g : Game) (p q j : Fin 4) (n : Int) :
    (capture g p n).piece q j = if q ≠ p then captureOne n (g.piece q j) else g.piece q j := by
  unfold capture Game.piece
  simp only [Mathlib.Vector.get_ofFn]
  by_cases hq : q = p
  · simp [hq]
  · simp [hq, Mathlib.Vector.get_map]

/-! ## `GetLegal` -/

theorem mem_GetLegal (g : Game) (p i : Fin 4) (d : Int) :
    i ∈ GetLegal g p d ↔ legalPiece g p d i = true := by
  simp [GetLegal, List.mem_filter, List.mem_finRange]

theorem legalPiece_iff (g : Game) (p i : Fin 4) (d : Int) :
    legalPiece g p d i = true ↔
      ((g.piece p i).atHome ∧ d = 6) ∨
      (∃ f, (g.piece p i).inLane f ∧ d ≤ 5 - f) ∨
      (∃ t, (g.piece p i).onTrack t ∧
        (t + d < 43 ∨ (1 ≤ t + d - 42 ∧ t + d - 42 ≤ 6))) := by
  unfold legalPiece Piece.atHome Piece.inLane Piece.onTrack
  simp only [L_eq]
  cases hH : (g.piece p i).inHome <;> cases hF : (g.piece p i).inFinal <;> simp
  all_goals omega

/-! ## `MovePieceBySteps`, case by case -/

theorem move_home_six (g : Game) (p i : Fin 4)
    (hH : (g.piece p i).inHome = true) :
    MovePieceBySteps g p i 6 = some (true, g.setPiece p i (spawned (g.piece p i) p)) := by
  have hs := startIndexFor_lt p
  obtain ⟨c, hc⟩ := outerAt_some (k := (startIndexFor p : Int)) (by omega) (by omega)
  simp [MovePieceBySteps, hH, SpawnFromHome, hc, spawned]

theorem move_home_other (g : Game) (p i : Fin 4) (d : Int)
    (hH : (g.piece p i).inHome = true) (hd : d ≠ 6) :
    MovePieceBySteps g p i d = some (false, g) := by
  simp [MovePieceBySteps, hH, hd]

theorem move_lane_over (g : Game) (p i : Fin 4) (d : Int)
    (hH : (g.piece p i).inHome = false) (hF : (g.piece p i).inFinal = true)
    (h : 5 < (g.piece p i).finalIdx + d) :
    MovePieceBySteps g p i d = some (false, g) := by
  simp [MovePieceBySteps, hH, hF, h]

theorem move_lane_ok (g : Game) (p i : Fin 4) (d : Int)
    (hH : (g.piece p i).inHome = false) (hF : (g.piece p i).inFinal = true)
    (h0 : 0 ≤ (g.piece p i).finalIdx + d) (h : (g.piece p i).finalIdx + d ≤ 5) :
    MovePieceBySteps g p i d = some (true,
      if (g.piece p i).finalIdx + d = 5 then
        finishCheck (g.setPiece p i { g.piece p i with finalIdx := (g.piece p i).finalIdx + d }) p
      else g.setPiece p i { g.piece p i with finalIdx := (g.piece p i).finalIdx + d }) := by
  obtain ⟨c, hc⟩ := finalAt_some p h0 h
  have h' : ¬ 5 < (g.piece p i).finalIdx + d := by omega
  simp [MovePieceBySteps, hH, hF, h', hc]

theorem move_track_stay (g : Game) (p i : Fin 4) (d : Int)
    (hH : (g.piece p i).inHome = false) (hF : (g.piece p i).inFinal = false)
    (h0 : 0 ≤ (g.piece p i).outerIdx + d) (h : (g.piece p i).outerIdx + d < 43) :
    ∃ dst, outerAt ((g.piece p i).outerIdx + d) = some dst ∧
      MovePieceBySteps g p i d = some (true,
        if IsSafe dst = false then
          capture (g.setPiece p i { g.piece p i with outerIdx := (g.piece p i).outerIdx + d }) p
            ((g.piece p i).outerIdx + d)
        else g.setPiece p i { g.piece p i with outerIdx := (g.piece p i).outerIdx + d }) := by
  obtain ⟨c, hc⟩ := outerAt_some h0 h
  refine ⟨c, hc, ?_⟩
  simp [MovePieceBySteps, hH, hF, L_eq, h, hc]

theorem move_track_enter (g : Game) (p i : Fin 4) (d : Int)
    (hH : (g.piece p i).inHome = false) (hF : (g.piece p i).inFinal = false)
    (h0 : 43 ≤ (g.piece p i).outerIdx + d) (h : (g.piece p i).outerIdx + d ≤ 48) :
    MovePieceBySteps g p i d = some (true,
      if (g.piece p i).outerIdx + d - 43 = 5 then
        finishCheck (g.setPiece p i { g.piece p i with
          inFinal := true, outerIdx := -1, finalIdx := (g.piece p i).outerIdx + d - 43 }) p
      else g.setPiece p i { g.piece p i with
          inFinal := true, outerIdx := -1, finalIdx := (g.piece p i).outerIdx + d - 43 }) := by
  obtain ⟨c, hc⟩ := finalAt_some p (k := (g.piece p i).outerIdx + d - 43) (by omega) (by omega)
  have h1 : ¬ (g.piece p i).outerIdx + d < 43 := by omega
  have h2 : (g.piece p i).outerIdx + d - (43 - 1) - 1 = (g.piece p i).outerIdx + d - 43 := by
    omega
  have h3 : 1 ≤ (g.piece p i).outerIdx + d - (43 - 1) := by omega
  have h4 : (g.piece p i).outerIdx + d - (43 - 1) ≤ 6 := by omega
  simp only [MovePieceBySteps, hH, hF, L_eq, h1, h2, h3, h4, hc]
  simp

theorem move_track_over (g : Game) (p i : Fin 4) (d : Int)
    (hH : (g.piece p i).inHome = false) (hF : (g.piece p i).inFinal = false)
    (h : 48 < (g.piece p i).outerIdx + d) :
    MovePieceBySteps g p i d = some (false, g) := by
  have h1 : ¬ (g.piece p i).outerIdx + d < 43 := by omega
  simp only [MovePieceBySteps, hH, hF, L_eq]
  simp only [h1, if_false, Bool.false_eq_true]
  rw [if_neg (by omega)]

theorem pieceOK_cases {pc : Piece} (h : pieceOK pc) :
    (pc.inHome = true ∧ pc.inFinal = false ∧ pc.outerIdx = -1 ∧ pc.finalIdx = -1) ∨
    (pc.inHome = false ∧ pc.inFinal = true ∧ pc.outerIdx = -1 ∧
      0 ≤ pc.finalIdx ∧ pc.finalIdx ≤ 5) ∨
    (pc.inHome = false ∧ pc.inFinal = false ∧ 0 ≤ pc.outerIdx ∧ pc.outerIdx ≤ 42 ∧
      pc.finalIdx = -1) := by
  obtain ⟨h1, h2, h3, h4⟩ := h
  cases hH : pc.inHome <;> cases hF : pc.inFinal <;> simp_all

/-- Outcome of `MovePieceBySteps` on a piece satisfying `pieceOK`, by location. -/
theorem move_cases (g : Game) (p i : Fin 4) (d : Int) (hok : pieceOK (g.piece p i))
    (hd1 : 1 ≤ d) (hd6 : d ≤ 6) :
    ((g.piece p i).inHome = true ∧ d = 6 ∧ legalPiece g p d i = true ∧
        MovePieceBySteps g p i d = some (true, g.setPiece p i (spawned (g.piece p i) p))) ∨
    ((g.piece p i).inHome = true ∧ d ≠ 6 ∧ legalPiece g p d i = false ∧
        MovePieceBySteps g p i d = some (false, g)) ∨
    ((g.piece p i).inHome = false ∧ (g.piece p i).inFinal = true ∧
        5 < (g.piece p i).finalIdx + d ∧ legalPiece g p d i = false ∧
        MovePieceBySteps g p i d = some (false, g)) ∨
    ((g.piece p i).inHome = false ∧ (g.piece p i).inFinal = true ∧
        (g.piece p i).finalIdx + d ≤ 5 ∧ legalPiece g p d i = true ∧
        MovePieceBySteps g p i d = some (true,
          if (g.piece p i).finalIdx + d = 5 then
            finishCheck
              (g.setPiece p i { g.piece p i with finalIdx := (g.piece p i).finalIdx + d }) p
          else g.setPiece p i { g.piece p i with finalIdx := (g.piece p i).finalIdx + d })) ∨
    ((g.piece p i).inHome = false ∧ (g.piece p i).inFinal = false ∧
        (g.piece p i).outerIdx + d < 43 ∧ legalPiece g p d i = true ∧
        ∃ dst, outerAt ((g.piece p i).outerIdx + d) = some dst ∧
          MovePieceBySteps g p i d = some (true,
            if IsSafe dst = false then
              capture
                (g.setPiece p i { g.piece p i with outerIdx := (g.piece p i).outerIdx + d }) p
                ((g.piece p i).outerIdx + d)
            else
              g.setPiece p i { g.piece p i with outerIdx := (g.piece p i).outerIdx + d })) ∨
    ((g.piece p i).inHome = false ∧ (g.piece p i).inFinal = false ∧
        43 ≤ (g.piece p i).outerIdx + d ∧ legalPiece g p d i = true ∧
        MovePieceBySteps g p i d = some (true,
          if (g.piece p i).outerIdx + d - 43 = 5 then
            finishCheck (g.setPiece p i { g.piece p i with
              inFinal := true, outerIdx := -1,
              finalIdx := (g.piece p i).outerIdx + d - 43 }) p
          else g.setPiece p i { g.piece p i with
              inFinal := true, outerIdx := -1,
              finalIdx := (g.piece p i).outerIdx + d - 43 })) := by
  rcases pieceOK_cases hok with ⟨hH, -, -, -⟩ | ⟨hH, hF, -, hf0, hf5⟩ | ⟨hH, hF, ht0, ht42, -⟩
  · by_cases h6 : d = 6
    · subst h6
      exact Or.inl ⟨hH, rfl, by simp [legalPiece, hH], move_home_six g p i hH⟩
    · exact Or.inr (Or.inl ⟨hH, h6, by simp [legalPiece, hH, h6],
        move_home_other g p i d hH h6⟩)
  · by_cases h5 : (g.piece p i).finalIdx + d ≤ 5
    · refine Or.inr (Or.inr (Or.inr (Or.inl ⟨hH, hF, h5, ?_,
        move_lane_ok g p i d hH hF (by omega) h5⟩)))
      simp only [legalPiece, hH, hF]; simp; omega
    · refine Or.inr (Or.inr (Or.inl ⟨hH, hF, by omega, ?_,
        move_lane_over g p i d hH hF (by omega)⟩))
      simp only [legalPiece, hH, hF]; simp; omega
  · by_cases h43 : (g.piece p i).outerIdx + d < 43
    · obtain ⟨dst, hdst, hm⟩ := move_track_stay g p i d hH hF (by omega) h43
      refine Or.inr (Or.inr (Or.inr (Or.inr (Or.inl ⟨hH, hF, h43, ?_, dst, hdst, hm⟩))))
      simp only [legalPiece, hH, hF, L_eq]; simp; omega
    · refine Or.inr (Or.inr (Or.inr (Or.inr (Or.inr ⟨hH, hF, by omega, ?_,
        move_track_enter g p i d hH hF (by omega) (by omega)⟩))))
      simp only [legalPiece, hH, hF, L_eq]; simp; omega

/-! ## Well-formedness is preserved -/

theorem pieceOK_spawned (pc : Piece) (p : Fin 4) : pieceOK (spawned pc p) := by
  have := startIndexFor_lt p
  simp only [pieceOK, spawned]
  simp; omega

theorem pieceOK_captureOne (n : Int) (pc : Piece) (h : pieceOK pc) :
    pieceOK (captureOne n pc) := by
  unfold captureOne
  split
  · simp [pieceOK]
  · exact h

/-- A call of `MovePieceBySteps` with a die value in 1..6 keeps the state well formed. -/
theorem move_wellFormed (g g1 : Game) (p i : Fin 4) (d : Int) (b : Bool)
    (hwf : WellFormed g) (hd1 : 1 ≤ d) (hd6 : d ≤ 6)
    (hm : MovePieceBySteps g p i d = some (b, g1)) : WellFormed g1 := by
  have hok := hwf p i
  obtain ⟨-, -, h3, h4⟩ := id hok
  intro q j
  rcases move_cases g p i d hok hd1 hd6 with
    ⟨-, -, -, h⟩ | ⟨-, -, -, h⟩ | ⟨-, -, -, -, h⟩ | ⟨hH, hF, h5, -, h⟩ |
    ⟨hH, hF, h43, -, dst, -, h⟩ | ⟨hH, hF, h43, -, h⟩
  all_goals
    rw [h] at hm
    simp only [Option.some.injEq, Prod.mk.injEq] at hm
    obtain ⟨-, rfl⟩ := hm
  · rw [piece_setPiece]; split
    · exact pieceOK_spawned _ _
    · exact hwf q j
  · exact hwf q j
  · exact hwf q j
  · have hnew : pieceOK { g.piece p i with finalIdx := (g.piece p i).finalIdx + d } := by
      have := h3 hF
      simp only [pieceOK, hH, hF]; simp; omega
    split
    · rw [piece_finishCheck, piece_setPiece]; split
      · exact hnew
      · exact hwf q j
    · rw [piece_setPiece]; split
      · exact hnew
      · exact hwf q j
  · have hnew : pieceOK { g.piece p i with outerIdx := (g.piece p i).outerIdx + d } := by
      have := h4 hH hF
      simp only [pieceOK, hH, hF]; simp; omega
    have hset : ∀ q j, pieceOK ((g.setPiece p i
        { g.piece p i with outerIdx := (g.piece p i).outerIdx + d }).piece q j) := by
      intro q j
      rw [piece_setPiece]; split
      · exact hnew
      · exact hwf q j
    split
    · rw [piece_capture]; split
      · exact pieceOK_captureOne _ _ (hset q j)
      · exact hset q j
    · exact hset q j
  · have hnew : pieceOK
        { g.piece p i with
          inFinal := true, outerIdx := -1, finalIdx := (g.piece p i).outerIdx + d - 43 } := by
      have := h4 hH hF
      simp only [pieceOK, hH]; simp; omega
    split
    · rw [piece_finishCheck, piece_setPiece]; split
      · exact hnew
      · exact hwf q j
    · rw [piece_setPiece]; split
      · exact hnew
      · exact hwf q j

theorem move_total (g : Game) (p i : Fin 4) (d : Int) (hwf : WellFormed g)
    (hd1 : 1 ≤ d) (hd6 : d ≤ 6) :
    ∃ b g1, MovePieceBySteps g p i d = some (b, g1) ∧ (b = true ↔ legalPiece g p d i = true) := by
  rcases move_cases g p i d (hwf p i) hd1 hd6 with
    ⟨-, -, hl, h⟩ | ⟨-, -, hl, h⟩ | ⟨-, -, -, hl, h⟩ | ⟨-, -, -, hl, h⟩ |
    ⟨-, -, -, hl, dst, -, h⟩ | ⟨-, -, -, hl, h⟩
  all_goals exact ⟨_, _, h, by simp [hl]⟩

theorem setupPlayers_wellFormed : WellFormed SetupPlayers := by decide

theorem moveReachable_wellFormed {g : Game} (h : MoveReachable g) : WellFormed g := by
  induction h with
  | init => exact setupPlayers_wellFormed
  | move p i d b _ hd1 hd6 hm ih => exact move_wellFormed _ _ p i d b ih hd1 hd6 hm

/-! ## Captures -/

theorem captureOne_ne_iff (n : Int) (pc : Piece) :
    captureOne n pc ≠ pc ↔ pc.onTrack n := by
  unfold captureOne Piece.onTrack
  cases hH : pc.inHome <;> cases hF : pc.inFinal <;> by_cases hn : pc.outerIdx = n <;>
    simp [hH, hF, hn]
  intro h
  have := congrArg Piece.inHome h
  simp [hH] at this

theorem captureOne_home (n : Int) (pc : Piece) (h : captureOne n pc ≠ pc) :
    captureOne n pc =
      { pc with inHome := true, inFinal := false, outerIdx := -1, finalIdx := -1 } := by
  unfold captureOne at h ⊢
  split
  · rfl
  · rename_i hc; simp [hc] at h

/-- Effect of `MovePieceBySteps` on the pieces other than the moved one. -/
theorem move_others (g : Game) (hwf : WellFormed g) (p i : Fin 4) (d : Int)
    (hd1 : 1 ≤ d) (hd6 : d ≤ 6) :
    ∃ b g1, MovePieceBySteps g p i d = some (b, g1) ∧
      ∀ q j : Fin 4, ¬(q = p ∧ j = i) →
        (g1.piece q j ≠ g.piece q j ↔
          (q ≠ p ∧ ∃ t dst, (g.piece p i).onTrack t ∧ t + d < 43 ∧
            outerAt (t + d) = some dst ∧ IsSafe dst = false ∧ (g.piece q j).onTrack (t + d))) ∧
        (g1.piece q j ≠ g.piece q j →
          g1.piece q j = { g.piece q j with
            inHome := true, inFinal := false, outerIdx := -1, finalIdx := -1 }) := by
  rcases move_cases g p i d (hwf p i) hd1 hd6 with
    ⟨hH, -, -, h⟩ | ⟨hH, -, -, h⟩ | ⟨hH, hF, -, -, h⟩ | ⟨hH, hF, h5, -, h⟩ |
    ⟨hH, hF, h43, -, dst, hdst, h⟩ | ⟨hH, hF, h43, -, h⟩
  all_goals refine ⟨_, _, h, fun q j hne => ?_⟩
  · have hq : (g.setPiece p i (spawned (g.piece p i) p)).piece q j = g.piece q j := by
      rw [piece_setPiece, if_neg hne]
    rw [hq]; simp [Piece.onTrack, hH]
  · simp [Piece.onTrack, hH]
  · simp [Piece.onTrack, hF]
  · have hq : (if (g.piece p i).finalIdx + d = 5 then
          finishCheck
            (g.setPiece p i { g.piece p i with finalIdx := (g.piece p i).finalIdx + d }) p
        else g.setPiece p i { g.piece p i with finalIdx := (g.piece p i).finalIdx + d }).piece q j
        = g.piece q j := by
      split
      · rw [piece_finishCheck, piece_setPiece, if_neg hne]
      · rw [piece_setPiece, if_neg hne]
    rw [hq]; simp [Piece.onTrack, hF]
  · have hset : (g.setPiece p i
        { g.piece p i with outerIdx := (g.piece p i).outerIdx + d }).piece q j = g.piece q j := by
      rw [piece_setPiece, if_neg hne]
    cases hs : IsSafe dst
    · simp only [if_true]
      rw [piece_capture, hset]
      by_cases hqp : q = p
      · simp [hqp]
      · simp only [hqp, ne_eq, not_false_eq_true, if_true, true_and]
        refine ⟨?_, captureOne_home _ _⟩
        refine (captureOne_ne_iff _ _).trans ⟨?_, ?_⟩
        · intro hT
          exact ⟨_, dst, ⟨hH, hF, rfl⟩, h43, hdst, hs, hT⟩
        · rintro ⟨t, dst1, ⟨-, -, ht⟩, -, -, -, hT⟩
          rw [ht]; exact hT
    · simp only [Bool.true_eq_false, if_false]
      rw [hset]
      simp only [ne_eq, not_true_eq_false, false_iff, not_and, not_exists, false_implies,
        and_true]
      rintro - t dst1 ⟨-, -, ht⟩ - hd1 hs1
      rw [← ht, hdst] at hd1
      simp only [Option.some.injEq] at hd1
      rw [← hd1, hs] at hs1
      exact absurd hs1 (by decide)
  · have hq : (if (g.piece p i).outerIdx + d - 43 = 5 then
          finishCheck (g.setPiece p i { g.piece p i with
            inFinal := true, outerIdx := -1,
            finalIdx := (g.piece p i).outerIdx + d - 43 }) p
        else g.setPiece p i { g.piece p i with
            inFinal := true, outerIdx := -1,
            finalIdx := (g.piece p i).outerIdx + d - 43 }).piece q j = g.piece q j := by
      split
      · rw [piece_finishCheck, piece_setPiece, if_neg hne]
      · rw [piece_setPiece, if_neg hne]
    rw [hq]
    simp only [ne_eq, not_true_eq_false, false_iff, not_and, not_exists, false_implies,
      and_true]
    rintro - t dst1 ⟨-, -, ht⟩ hlt
    omega

/-! ## Finishing -/

theorem setPiece_finished (g : Game) (p i q : Fin 4) (pc : Piece) :
    ((g.setPiece p i pc).players.get q).finished = (g.players.get q).finished := by
  unfold Game.setPiece
  by_cases hq : q = p
  · subst hq; simp [Mathlib.Vector.get_set_same]
  · simp [Mathlib.Vector.get_set_of_ne (Ne.symm hq)]

theorem setPiece_finishPlace (g : Game) (p i q : Fin 4) (pc : Piece) :
    ((g.setPiece p i pc).players.get q).finishPlace = (g.players.get q).finishPlace := by
  unfold Game.setPiece
  by_cases hq : q = p
  · subst hq; simp [Mathlib.Vector.get_set_same]
  · simp [Mathlib.Vector.get_set_of_ne (Ne.symm hq)]

theorem setPiece_isAI (g : Game) (p i q : Fin 4) (pc : Piece) :
    ((g.setPiece p i pc).players.get q).isAI = (g.players.get q).isAI := by
  unfold Game.setPiece
  by_cases hq : q = p
  · subst hq; simp [Mathlib.Vector.get_set_same]
  · simp [Mathlib.Vector.get_set_of_ne (Ne.symm hq)]

theorem capture_finished (g : Game) (p q : Fin 4) (n : Int) :
    ((capture g p n).players.get q).finished = (g.players.get q).finished := by
  unfold capture
  simp only [Mathlib.Vector.get_ofFn]
  split <;> rfl

theorem capture_finishPlace (g : Game) (p q : Fin 4) (n : Int) :
    ((capture g p n).players.get q).finishPlace = (g.players.get q).finishPlace := by
  unfold capture
  simp only [Mathlib.Vector.get_ofFn]
  split <;> rfl

theorem capture_isAI (g : Game) (p q : Fin 4) (n : Int) :
    ((capture g p n).players.get q).isAI = (g.players.get q).isAI := by
  unfold capture
  simp only [Mathlib.Vector.get_ofFn]
  split <;> rfl

/-- The scan of `finishCheck` passes iff every piece has `inFinal && finalIdx == 5`. -/
theorem allDone_iff (g : Game) (p : Fin 4) :
    ((g.players.get p).pieces.toList.all fun q => q.inFinal && q.finalIdx == 5) = true ↔
      ∀ j : Fin 4, (g.piece p j).inFinal = true ∧ (g.piece p j).finalIdx = 5 := by
  simp only [List.all_eq_true, Mathlib.Vector.mem_iff_get, Game.piece]
  constructor
  · intro h j
    have := h _ ⟨j, rfl⟩
    simpa using this
  · rintro h x ⟨j, rfl⟩
    simpa using h j

theorem finishCheck_fire (g : Game) (p : Fin 4)
    (hall : ∀ j : Fin 4, (g.piece p j).inFinal = true ∧ (g.piece p j).finalIdx = 5)
    (hfin : (g.players.get p).finished = false) :
    finishCheck g p =
      { g with
        players := g.players.set p
          { g.players.get p with finished := true, finishPlace := g.nextFinishPlace }
        nextFinishPlace := g.nextFinishPlace + 1
        playersFinishedCount := g.playersFinishedCount + 1 } := by
  unfold finishCheck
  simp only [(allDone_iff g p).2 hall, hfin]
  simp

theorem finishCheck_skip (g : Game) (p : Fin 4)
    (h : ¬((∀ j : Fin 4, (g.piece p j).inFinal = true ∧ (g.piece p j).finalIdx = 5) ∧
      (g.players.get p).finished = false)) :
    finishCheck g p = g := by
  unfold finishCheck
  rw [← allDone_iff] at h
  dsimp only
  split
  · rename_i hc
    simp only [Bool.and_eq_true, Bool.not_eq_true'] at hc
    exact absurd hc h
  · rfl

theorem maybeFinish_spec (g : Game) (p i : Fin 4) (c : Prop) [Decidable c]
    (hc : ¬c → ¬((g.piece p i).inFinal = true ∧ (g.piece p i).finalIdx = 5))
    (hwf : WellFormed g) :
    OthersUntouched g (if c then finishCheck g p else g) p ∧
    (((g.players.get p).finished = false ∧
        ∀ j : Fin 4, ((if c then finishCheck g p else g).piece p j).inLane 5) →
      FinishRecorded g (if c then finishCheck g p else g) p) ∧
    (¬((g.players.get p).finished = false ∧
        ∀ j : Fin 4, ((if c then finishCheck g p else g).piece p j).inLane 5) →
      FinishUntouched g (if c then finishCheck g p else g) p) := by
  have hpieces : ∀ j : Fin 4,
      (if c then finishCheck g p else g).piece p j = g.piece p j := by
    intro j; split
    · exact piece_finishCheck g p p j
    · rfl
  simp only [hpieces]
  have hlane : (∀ j : Fin 4, (g.piece p j).inLane 5) ↔
      ∀ j : Fin 4, (g.piece p j).inFinal = true ∧ (g.piece p j).finalIdx = 5 := by
    constructor
    · intro h j; exact ⟨(h j).2.1, (h j).2.2⟩
    · intro h j
      refine ⟨?_, (h j).1, (h j).2⟩
      have := (hwf p j).1
      cases hH : (g.piece p j).inHome
      · rfl
      · exact absurd ⟨hH, (h j).1⟩ this
  rw [hlane]
  by_cases hfire : c ∧ (∀ j : Fin 4, (g.piece p j).inFinal = true ∧ (g.piece p j).finalIdx = 5)
      ∧ (g.players.get p).finished = false
  · obtain ⟨hcT, hall, hfin⟩ := hfire
    rw [if_pos hcT, finishCheck_fire g p hall hfin]
    refine ⟨?_, ?_, ?_⟩
    · intro q hq
      simp [Mathlib.Vector.get_set_of_ne (Ne.symm hq)]
    · intro _
      simp [FinishRecorded, Mathlib.Vector.get_set_same]
    · intro h; exact absurd ⟨hfin, hall⟩ h
  · have hsame : (if c then finishCheck g p else g) = g := by
      split
      · rename_i hcT
        apply finishCheck_skip
        rintro ⟨hall, hfin⟩
        exact hfire ⟨hcT, hall, hfin⟩
      · rfl
    rw [hsame]
    refine ⟨fun q _ => ⟨rfl, rfl⟩, ?_, fun _ => ⟨rfl, rfl, rfl, rfl⟩⟩
    rintro ⟨hfin, hall⟩
    by_cases hcT : c
    · exact absurd ⟨hcT, hall, hfin⟩ hfire
    · exact absurd (hall i) (hc hcT)

theorem wellFormed_setPiece (g : Game) (p i : Fin 4) (pc : Piece)
    (hwf : WellFormed g) (hpc : pieceOK pc) : WellFormed (g.setPiece p i pc) := by
  intro q j
  rw [piece_setPiece]; split
  · exact hpc
  · exact hwf q j

theorem finishUntouched_setPiece (g : Game) (p i q : Fin 4) (pc : Piece) :
    FinishUntouched g (g.setPiece p i pc) q :=
  ⟨setPiece_finished g p i q pc, setPiece_finishPlace g p i q pc, rfl, rfl⟩

theorem finishUntouched_capture (g : Game) (p q : Fin 4) (n : Int) :
    FinishUntouched g (capture g p n) q :=
  ⟨capture_finished g p q n, capture_finishPlace g p q n, rfl, rfl⟩

/-- Transport of `maybeFinish_spec` across the write to the moved piece. -/
theorem setPiece_maybeFinish (g : Game) (p i : Fin 4) (pc : Piece) (c : Prop) [Decidable c]
    (hwf : WellFormed g) (hpc : pieceOK pc)
    (hc : ¬c → ¬(pc.inFinal = true ∧ pc.finalIdx = 5)) :
    OthersUntouched g (if c then finishCheck (g.setPiece p i pc) p else g.setPiece p i pc) p ∧
    (((g.players.get p).finished = false ∧ ∀ j : Fin 4,
        ((if c then finishCheck (g.setPiece p i pc) p else g.setPiece p i pc).piece p j).inLane 5) →
      FinishRecorded g (if c then finishCheck (g.setPiece p i pc) p else g.setPiece p i pc) p) ∧
    (¬((g.players.get p).finished = false ∧ ∀ j : Fin 4,
        ((if c then finishCheck (g.setPiece p i pc) p else g.setPiece p i pc).piece p j).inLane 5) →
      FinishUntouched g (if c then finishCheck (g.setPiece p i pc) p else g.setPiece p i pc) p) := by
  have hself : (g.setPiece p i pc).piece p i = pc := by
    rw [piece_setPiece]; simp
  obtain ⟨h1, h2, h3⟩ := maybeFinish_spec (g.setPiece p i pc) p i c
    (by rw [hself]; exact hc) (wellFormed_setPiece g p i pc hwf hpc)
  simp only [OthersUntouched, FinishRecorded, FinishUntouched, setPiece_finished,
    setPiece_finishPlace] at h1 h2 h3 ⊢
  exact ⟨h1, h2, h3⟩

/-- Effect of `MovePieceBySteps` on `finished`, `finishPlace` and the two counters. -/
theorem move_finish (g : Game) (hwf : WellFormed g) (p i : Fin 4) (d : Int)
    (hd1 : 1 ≤ d) (hd6 : d ≤ 6) :
    ∃ b g1, MovePieceBySteps g p i d = some (b, g1) ∧
      (b = true ↔ legalPiece g p d i = true) ∧
      OthersUntouched g g1 p ∧
      (((g.players.get p).finished = false ∧ b = true ∧
          ∀ j : Fin 4, (g1.piece p j).inLane 5) → FinishRecorded g g1 p) ∧
      (¬((g.players.get p).finished = false ∧ b = true ∧
          ∀ j : Fin 4, (g1.piece p j).inLane 5) → FinishUntouched g g1 p) := by
  have hok := hwf p i
  obtain ⟨-, -, h3, h4⟩ := id hok
  rcases move_cases g p i d hok hd1 hd6 with
    ⟨hH, -, hl, h⟩ | ⟨hH, -, hl, h⟩ | ⟨hH, hF, -, hl, h⟩ | ⟨hH, hF, h5, hl, h⟩ |
    ⟨hH, hF, h43, hl, dst, hdst, h⟩ | ⟨hH, hF, h43, hl, h⟩
  · refine ⟨_, _, h, by simp [hl], fun q _ => ?_, ?_, fun _ => finishUntouched_setPiece _ _ _ _ _⟩
    · exact ⟨setPiece_finished _ _ _ _ _, setPiece_finishPlace _ _ _ _ _⟩
    · rintro ⟨-, -, hall⟩
      have := (hall i).2.1
      rw [piece_setPiece] at this
      simp [spawned] at this
  · exact ⟨_, _, h, by simp [hl], fun q _ => ⟨rfl, rfl⟩, by simp, fun _ => ⟨rfl, rfl, rfl, rfl⟩⟩
  · exact ⟨_, _, h, by simp [hl], fun q _ => ⟨rfl, rfl⟩, by simp, fun _ => ⟨rfl, rfl, rfl, rfl⟩⟩
  · have hnew : pieceOK { g.piece p i with finalIdx := (g.piece p i).finalIdx + d } := by
      have := h3 hF
      simp only [pieceOK, hH, hF]; simp; omega
    obtain ⟨k1, k2, k3⟩ := setPiece_maybeFinish g p i
      { g.piece p i with finalIdx := (g.piece p i).finalIdx + d }
      ((g.piece p i).finalIdx + d = 5) hwf hnew (fun hne hx => hne hx.2)
    refine ⟨_, _, h, by simp [hl], k1, fun hx => k2 ⟨hx.1, hx.2.2⟩, fun hx => k3 ?_⟩
    exact fun hy => hx ⟨hy.1, rfl, hy.2⟩
  · have hpi : ∀ g2 : Game, g2 = (if IsSafe dst = false then
          capture
            (g.setPiece p i { g.piece p i with outerIdx := (g.piece p i).outerIdx + d }) p
            ((g.piece p i).outerIdx + d)
        else
          g.setPiece p i { g.piece p i with outerIdx := (g.piece p i).outerIdx + d }) →
        (g2.piece p i).inFinal = false ∧ ∀ q, FinishUntouched g g2 q := by
      intro g2 hg2
      subst hg2
      split
      · refine ⟨?_, fun q => ?_⟩
        · rw [piece_capture, piece_setPiece]; simp [hF]
        · obtain ⟨a1, a2, a3, a4⟩ := finishUntouched_capture
            (g.setPiece p i { g.piece p i with outerIdx := (g.piece p i).outerIdx + d }) p q
            ((g.piece p i).outerIdx + d)
          obtain ⟨b1, b2, b3, b4⟩ := finishUntouched_setPiece g p i q
            { g.piece p i with outerIdx := (g.piece p i).outerIdx + d }
          exact ⟨a1.trans b1, a2.trans b2, a3.trans b3, a4.trans b4⟩
      · refine ⟨?_, fun q => finishUntouched_setPiece _ _ _ _ _⟩
        rw [piece_setPiece]; simp [hF]
    obtain ⟨hf, hu⟩ := hpi _ rfl
    refine ⟨_, _, h, by simp [hl], fun q _ => ⟨(hu q).1, (hu q).2.1⟩, ?_, fun _ => hu p⟩
    rintro ⟨-, -, hall⟩
    have := (hall i).2.1
    rw [hf] at this
    exact absurd this (by decide)
  · have hnew : pieceOK
        { g.piece p i with
          inFinal := true, outerIdx := -1, finalIdx := (g.piece p i).outerIdx + d - 43 } := by
      have := h4 hH hF
      simp only [pieceOK, hH]; simp; omega
    obtain ⟨k1, k2, k3⟩ := setPiece_maybeFinish g p i
      { g.piece p i with
        inFinal := true, outerIdx := -1, finalIdx := (g.piece p i).outerIdx + d - 43 }
      ((g.piece p i).outerIdx + d - 43 = 5) hwf hnew (fun hne hx => hne hx.2)
    refine ⟨_, _, h, by simp [hl], k1, fun hx => k2 ⟨hx.1, hx.2.2⟩, fun hx => k3 ?_⟩
    exact fun hy => hx ⟨hy.1, rfl, hy.2⟩

/-! ## The claims about `GetLegal` and `MovePieceBySteps` -/

/-- C1. For every game state `g`, player `p`, piece index `i` and die value `d`
(in particular `d` in 1..6): `GetLegal(p, d)` contains `i` if and only if piece
`i` of `p` is at home and `d = 6`, or is in the final lane at index `f` and
`d <= 5 - f`, or is on the track at index `t` and either `t + d < 43` or
`1 <= t + d - 42 <= 6`.  The three locations are read the way the code reads
them (`inHome` first, then `inFinal`). -/
theorem getLegal_contains_iff (g : Game) (p i : Fin 4) (d : Int) :
    i ∈ GetLegal g p d ↔
      ((g.piece p i).atHome ∧ d = 6) ∨
      (∃ f, (g.piece p i).inLane f ∧ d ≤ 5 - f) ∨
      (∃ t, (g.piece p i).onTrack t ∧
        (t + d < 43 ∨ (1 ≤ t + d - 42 ∧ t + d - 42 ≤ 6))) :=
  (mem_GetLegal g p i d).trans (legalPiece_iff g p i d)

/-- First scenario of C1: one piece at home and three at final-lane index 4, die 6:
exactly the home piece is legal. -/
theorem getLegal_home_and_lane4 : GetLegal legalEx 0 6 = [0] := by decide

/-- Second scenario of C1: a piece at final-lane index 3 is not legal for die 4. -/
theorem getLegal_lane3_die4 : (0 : Fin 4) ∉ GetLegal laneEx 0 4 := by decide

/-- C2. In a well-formed state, for a die in 1..6, the call
`MovePieceBySteps(p, i, d)` completes, and a piece `(q, j)` other than the moved
one is changed by it if and only if `q != p`, the moved piece was on the track at
some index `t` with `t + d < 43`, the cell `outerPath[t + d]` is not safe, and
piece `(q, j)` was on the track at index `t + d`; every changed piece is reset to
home with `outerIdx = finalIdx = -1`. -/
theorem move_changes_exactly_captured (g : Game) (hwf : WellFormed g) (p i : Fin 4) (d : Int)
    (hd1 : 1 ≤ d) (hd6 : d ≤ 6) :
    ∃ b g1, MovePieceBySteps g p i d = some (b, g1) ∧
      ∀ q j : Fin 4, ¬(q = p ∧ j = i) →
        (g1.piece q j ≠ g.piece q j ↔
          (q ≠ p ∧ ∃ t dst, (g.piece p i).onTrack t ∧ t + d < 43 ∧
            outerAt (t + d) = some dst ∧ IsSafe dst = false ∧ (g.piece q j).onTrack (t + d))) ∧
        (g1.piece q j ≠ g.piece q j →
          g1.piece q j = { g.piece q j with
            inHome := true, inFinal := false, outerIdx := -1, finalIdx := -1 }) :=
  move_others g hwf p i d hd1 hd6

/-- Witness of C2: player 2 moves from index 4 to the unsafe index 7, where
players 0 and 1 each have a piece; both are sent home, and player 2's own piece
at index 7 and the pieces elsewhere stay. -/
theorem move_changes_exactly_captured_witness :
    WellFormed captureEx ∧
    ∃ b g1, MovePieceBySteps captureEx 2 0 3 = some (b, g1) ∧
      g1.piece 0 0 = homePiece 0 ∧ g1.piece 1 0 = homePiece 1 ∧
      g1.piece 2 1 = captureEx.piece 2 1 ∧ g1.piece 0 3 = captureEx.piece 0 3 ∧
      g1.piece 3 0 = captureEx.piece 3 0 := by
  refine ⟨by decide, ?_⟩
  obtain ⟨b, g1, hm, h⟩ :=
    move_changes_exactly_captured captureEx (by decide) 2 0 3 (by decide) (by decide)
  have hcap : ∀ q j : Fin 4, q ≠ 2 → (captureEx.piece q j).onTrack 7 →
      g1.piece q j ≠ captureEx.piece q j := fun q j hq hT =>
    (h q j (fun hx => hq hx.1)).1.2
      ⟨hq, 4, ⟨1, 10⟩, by decide, by decide, by decide, by decide, hT⟩
  have hkeep : ∀ q j : Fin 4, ¬(q = 2 ∧ j = 0) →
      ¬(q ≠ 2 ∧ (captureEx.piece q j).onTrack 7) →
      g1.piece q j = captureEx.piece q j := by
    intro q j hne hno
    by_contra hch
    obtain ⟨hq, t, dst, hT, -, -, -, hT2⟩ := (h q j hne).1.1 hch
    have ht : t = 4 := by
      have := hT.2.2
      simpa [captureEx, mkGame, mkPlayer, trackPiece, Game.piece] using this.symm
    subst ht
    exact hno ⟨hq, hT2⟩
  refine ⟨b, g1, hm, ?_, ?_, hkeep 2 1 (by decide) (by decide), hkeep 0 3 (by decide) (by decide),
    hkeep 3 0 (by decide) (by decide)⟩
  · rw [(h 0 0 (by decide)).2 (hcap 0 0 (by decide) (by decide))]; decide
  · rw [(h 1 0 (by decide)).2 (hcap 1 0 (by decide) (by decide))]; decide

/-- C3. The track has exactly 43 cells, and for a piece on the track at index `t`
(`0 <= t <= 42`) and a die `d` in 1..6, `MovePieceBySteps` accepts the move and
leaves the piece on the track at `t + d` when `t + d < 43`, and otherwise puts it
into the final lane at index `(t + d) - (L - 1) - 1 = t + d - 43`, which is in
0..5, with `outerIdx = -1`. -/
theorem track_move_destination (g : Game) (p i : Fin 4) (t d : Int)
    (hT : (g.piece p i).onTrack t) (ht0 : 0 ≤ t) (ht42 : t ≤ 42)
    (hd1 : 1 ≤ d) (hd6 : d ≤ 6) :
    outerPath.length = 43 ∧ L = 43 ∧
    ∃ g1, MovePieceBySteps g p i d = some (true, g1) ∧
      (t + d < 43 → (g1.piece p i).onTrack (t + d)) ∧
      (43 ≤ t + d →
        (g1.piece p i).inLane (t + d - 43) ∧ (g1.piece p i).outerIdx = -1 ∧
        t + d - 43 = (t + d) - (L - 1) - 1 ∧ 0 ≤ t + d - 43 ∧ t + d - 43 ≤ 5) := by
  obtain ⟨hH, hF, ht⟩ := hT
  refine ⟨outerPath_length, L_eq, ?_⟩
  by_cases h43 : t + d < 43
  · obtain ⟨dst, -, hm⟩ := move_track_stay g p i d hH hF (by omega) (by omega)
    refine ⟨_, hm, fun _ => ?_, fun h => absurd h43 (by omega)⟩
    split
    · rw [piece_capture, piece_setPiece]; simp [Piece.onTrack, hH, hF, ht]
    · rw [piece_setPiece]; simp [Piece.onTrack, hH, hF, ht]
  · refine ⟨_, move_track_enter g p i d hH hF (by omega) (by omega),
      fun h => absurd h h43, fun _ => ?_⟩
    refine ⟨?_, ?_, by rw [L_eq]; omega, by omega, by omega⟩
    · split
      · rw [piece_finishCheck, piece_setPiece]; simp [Piece.inLane, hH, ht]
      · rw [piece_setPiece]; simp [Piece.inLane, hH, ht]
    · split
      · rw [piece_finishCheck, piece_setPiece]; simp
      · rw [piece_setPiece]; simp

/-- Witness of C3: a piece at track index 40 rolling a 5 enters the final lane at
index 2. -/
theorem track_move_destination_witness :
    (enterEx.piece 0 0).onTrack 40 ∧
    ∃ g1, MovePieceBySteps enterEx 0 0 5 = some (true, g1) ∧
      (g1.piece 0 0).inLane 2 ∧ (g1.piece 0 0).outerIdx = -1 := by
  obtain ⟨-, -, g1, hm, -, h⟩ := track_move_destination enterEx 0 0 40 5
    (by decide) (by decide) (by decide) (by decide) (by decide)
  obtain ⟨h1, h2, -⟩ := h (by decide)
  exact ⟨by decide, g1, hm, h1, h2⟩

/-- C4. In a well-formed state, for a legal piece `i` and a die in 1..6,
`MovePieceBySteps(p, i, d)` is accepted and turns `players[p].finished` from false
to true if and only if `p` was not finished and after the move all four pieces of
`p` are in the final lane at index 5; in that case `finishPlace` of `p` becomes the
old `nextFinishPlace` and both counters grow by one, otherwise `finishPlace` of
`p` and both counters are unchanged; no other player's `finished` or `finishPlace`
changes, and a finished player stays finished with the same place. -/
theorem move_finished_iff_all_home (g : Game) (hwf : WellFormed g) (p i : Fin 4) (d : Int)
    (hd1 : 1 ≤ d) (hd6 : d ≤ 6) (hleg : i ∈ GetLegal g p d) :
    ∃ g1, MovePieceBySteps g p i d = some (true, g1) ∧
      (((g.players.get p).finished = false ∧ (g1.players.get p).finished = true) ↔
        ((g.players.get p).finished = false ∧ ∀ j : Fin 4, (g1.piece p j).inLane 5)) ∧
      (((g.players.get p).finished = false ∧ ∀ j : Fin 4, (g1.piece p j).inLane 5) →
        (g1.players.get p).finishPlace = g.nextFinishPlace ∧
        g1.nextFinishPlace = g.nextFinishPlace + 1 ∧
        g1.playersFinishedCount = g.playersFinishedCount + 1) ∧
      (¬((g.players.get p).finished = false ∧ ∀ j : Fin 4, (g1.piece p j).inLane 5) →
        (g1.players.get p).finishPlace = (g.players.get p).finishPlace ∧
        g1.nextFinishPlace = g.nextFinishPlace ∧
        g1.playersFinishedCount = g.playersFinishedCount) ∧
      (∀ q : Fin 4, q ≠ p →
        (g1.players.get q).finished = (g.players.get q).finished ∧
        (g1.players.get q).finishPlace = (g.players.get q).finishPlace) ∧
      ((g.players.get p).finished = true →
        (g1.players.get p).finished = true ∧
        (g1.players.get p).finishPlace = (g.players.get p).finishPlace) := by
  obtain ⟨b, g1, hm, hb, hoth, hrec, hunt⟩ := move_finish g hwf p i d hd1 hd6
  have hbt : b = true := hb.2 ((mem_GetLegal g p i d).1 hleg)
  subst hbt
  refine ⟨g1, hm, ⟨?_, ?_⟩, ?_, ?_, hoth, ?_⟩
  · rintro ⟨hf, hf1⟩
    refine ⟨hf, ?_⟩
    by_contra hno
    have := (hunt (fun hx => hno hx.2.2)).1
    rw [hf, hf1] at this
    exact absurd this (by decide)
  · rintro ⟨hf, hall⟩
    exact ⟨hf, (hrec ⟨hf, rfl, hall⟩).1⟩
  · rintro ⟨hf, hall⟩
    exact (hrec ⟨hf, rfl, hall⟩).2
  · intro hno
    exact (hunt (fun hx => hno ⟨hx.1, hx.2.2⟩)).2
  · intro hf
    have hu := hunt (fun hx => by rw [hf] at hx; exact absurd hx.1 (by decide))
    exact ⟨hu.1.trans hf, hu.2.1⟩

/-- Witness of C4: player 1 has three pieces at final-lane index 5 and moves the
fourth from index 3 by 2: it becomes finished with place 1. -/
theorem move_finished_iff_all_home_witness :
    WellFormed finishEx ∧ (2 : Fin 4) ∈ GetLegal finishEx 1 2 ∧
    ∃ g1, MovePieceBySteps finishEx 1 2 2 = some (true, g1) ∧
      (g1.players.get 1).finished = true ∧ (g1.players.get 1).finishPlace = 1 ∧
      g1.nextFinishPlace = 2 ∧ g1.playersFinishedCount = 1 := by
  refine ⟨by decide, by decide, ?_⟩
  obtain ⟨g1, hm, hiff, hrec, -, -, -⟩ := move_finished_iff_all_home finishEx (by decide) 1 2 2
    (by decide) (by decide) (by decide)
  have hall : (MovePieceBySteps finishEx 1 2 2).map
      (fun r => decide (∀ j : Fin 4, (r.2.piece 1 j).inLane 5)) = some true := by decide
  rw [hm] at hall
  have hall1 : ∀ j : Fin 4, (g1.piece 1 j).inLane 5 := by simpa using hall
  have hpre : (finishEx.players.get 1).finished = false := by decide
  obtain ⟨h1, h2, h3⟩ := hrec ⟨hpre, hall1⟩
  exact ⟨g1, hm, (hiff.2 ⟨hpre, hall1⟩).2, h1, h2, h3⟩

/-- C8. In a well-formed state, for a die in 1..6, `MovePieceBySteps(p, i, d)`
completes; it returns false if and only if `i` is not in `GetLegal(p, d)`, and
when it returns false the whole game state is the one before the call. -/
theorem move_rejects_iff_not_legal (g : Game) (hwf : WellFormed g) (p i : Fin 4) (d : Int)
    (hd1 : 1 ≤ d) (hd6 : d ≤ 6) :
    ∃ b g1, MovePieceBySteps g p i d = some (b, g1) ∧
      (b = false ↔ i ∉ GetLegal g p d) ∧ (b = false → g1 = g) := by
  rw [mem_GetLegal]
  rcases move_cases g p i d (hwf p i) hd1 hd6 with
    ⟨-, -, hl, h⟩ | ⟨-, -, hl, h⟩ | ⟨-, -, -, hl, h⟩ | ⟨-, -, -, hl, h⟩ |
    ⟨-, -, -, hl, dst, -, h⟩ | ⟨-, -, -, hl, h⟩
  all_goals exact ⟨_, _, h, by simp [hl], by simp⟩

/-- Witness of C8: a piece at final-lane index 3 with die 4 is rejected and the
state is unchanged. -/
theorem move_rejects_iff_not_legal_witness :
    WellFormed laneEx ∧ (0 : Fin 4) ∉ GetLegal laneEx 0 4 ∧
    MovePieceBySteps laneEx 0 0 4 = some (false, laneEx) := by
  refine ⟨by decide, by decide, ?_⟩
  obtain ⟨b, g1, hm, hb, hg⟩ :=
    move_rejects_iff_not_legal laneEx (by decide) 0 0 4 (by decide) (by decide)
  have hbf : b = false := hb.2 (by decide)
  rw [hm, hg hbf, hbf]

/-- C10. Every state reachable from `SetupPlayers` by calls of `MovePieceBySteps`
with a die in 1..6 satisfies, for each of the 16 pieces: `inHome` and `inFinal` are
not both true; if `inHome` then `outerIdx = -1` and `finalIdx = -1`; if `inFinal`
then `outerIdx = -1` and `0 <= finalIdx <= 5`; if neither then
`0 <= outerIdx <= 42` and `finalIdx = -1`.  Moreover no read of `outerPath` or
`finalPaths` is out of range: the reads at a piece's own index succeed, and every
further call of `MovePieceBySteps` with a die in 1..6 completes. -/
theorem moveReachable_location_invariant (g : Game) (h : MoveReachable g) :
    (∀ p i : Fin 4,
      ¬((g.piece p i).inHome = true ∧ (g.piece p i).inFinal = true) ∧
      ((g.piece p i).inHome = true →
        (g.piece p i).outerIdx = -1 ∧ (g.piece p i).finalIdx = -1) ∧
      ((g.piece p i).inFinal = true →
        (g.piece p i).outerIdx = -1 ∧ 0 ≤ (g.piece p i).finalIdx ∧
        (g.piece p i).finalIdx ≤ 5) ∧
      ((g.piece p i).inHome = false → (g.piece p i).inFinal = false →
        0 ≤ (g.piece p i).outerIdx ∧ (g.piece p i).outerIdx ≤ 42 ∧
        (g.piece p i).finalIdx = -1)) ∧
    (∀ p i : Fin 4,
      ((g.piece p i).inHome = false → (g.piece p i).inFinal = false →
        ∃ c, outerAt (g.piece p i).outerIdx = some c) ∧
      ((g.piece p i).inHome = false → (g.piece p i).inFinal = true →
        ∃ c, finalAt p (g.piece p i).finalIdx = some c)) ∧
    (∀ (p i : Fin 4) (d : Int), 1 ≤ d → d ≤ 6 →
      ∃ b g1, MovePieceBySteps g p i d = some (b, g1)) := by
  have hwf := moveReachable_wellFormed h
  refine ⟨fun p i => hwf p i, fun p i => ⟨fun hH hF => ?_, fun _ hF => ?_⟩,
    fun p i d hd1 hd6 => ?_⟩
  · obtain ⟨h0, h42, -⟩ := (hwf p i).2.2.2 hH hF
    exact outerAt_some h0 (by omega)
  · obtain ⟨-, h0, h5⟩ := (hwf p i).2.2.1 hF
    exact finalAt_some p h0 h5
  · obtain ⟨b, g1, hm, -⟩ := move_total g p i d hwf hd1 hd6
    exact ⟨b, g1, hm⟩

/-- Witness of C10: the state after player 3 spawns piece 0 is reachable, so its
piece 0 of player 3 is on the track with `0 <= outerIdx <= 42`. -/
theorem moveReachable_location_invariant_witness :
    MoveReachable (SetupPlayers.setPiece 3 0 (spawned (SetupPlayers.piece 3 0) 3)) ∧
    0 ≤ ((SetupPlayers.setPiece 3 0 (spawned (SetupPlayers.piece 3 0) 3)).piece 3 0).outerIdx ∧
    ((SetupPlayers.setPiece 3 0 (spawned (SetupPlayers.piece 3 0) 3)).piece 3 0).outerIdx ≤ 42 := by
  have hr : MoveReachable (SetupPlayers.setPiece 3 0 (spawned (SetupPlayers.piece 3 0) 3)) :=
    MoveReachable.move 3 0 6 true MoveReachable.init (by decide) (by decide)
      (move_home_six SetupPlayers 3 0 (by decide))
  obtain ⟨h1, -, -⟩ := moveReachable_location_invariant _ hr
  obtain ⟨h0, h42, -⟩ := (h1 3 0).2.2.2 (by decide) (by decide)
  exact ⟨hr, h0, h42⟩

/-! ## The distance from the entry cell to the final lane -/

theorem advancePiece_progress (p i : Fin 4) (ds : List Int) :
    ∀ g : Game, WellFormed g → (g.piece p i).inHome = false →
      (∀ d ∈ ds, 1 ≤ d ∧ d ≤ 6) →
      ∃ adv g1, advancePiece p i ds g = some (adv, g1) ∧ WellFormed g1 ∧
        (g1.piece p i).inHome = false ∧ 0 ≤ adv ∧
        progress (g1.piece p i) = progress (g.piece p i) + adv := by
  induction ds with
  | nil =>
    intro g hwf hH _
    exact ⟨0, g, rfl, hwf, hH, le_refl _, by simp⟩
  | cons d ds ih =>
    intro g hwf hH hds
    obtain ⟨hd1, hd6⟩ := hds d (List.mem_cons_self _ _)
    have hok := hwf p i
    have hstep : ∃ b g1, MovePieceBySteps g p i d = some (b, g1) ∧
        (g1.piece p i).inHome = false ∧
        progress (g1.piece p i) = progress (g.piece p i) + (if b then d else 0) := by
      rcases move_cases g p i d hok hd1 hd6 with
        ⟨hH1, -, -, -⟩ | ⟨hH1, -, -, -⟩ | ⟨-, hF, -, -, h⟩ | ⟨-, hF, h5, -, h⟩ |
        ⟨-, hF, h43, -, dst, -, h⟩ | ⟨-, hF, h43, -, h⟩
      · rw [hH] at hH1; exact absurd hH1 (by decide)
      · rw [hH] at hH1; exact absurd hH1 (by decide)
      · exact ⟨_, _, h, hH, by simp⟩
      · refine ⟨_, _, h, ?_, ?_⟩ <;> split <;>
          simp [piece_finishCheck, piece_setPiece, progress, hH, hF] <;> omega
      · refine ⟨_, _, h, ?_, ?_⟩ <;> split <;>
          simp [piece_capture, piece_setPiece, progress, hH, hF]
      · refine ⟨_, _, h, ?_, ?_⟩ <;> split <;>
          simp [piece_finishCheck, piece_setPiece, progress, hH, hF]
    obtain ⟨b, g1, hm, hH1, hp1⟩ := hstep
    have hwf1 := move_wellFormed g g1 p i d b hwf hd1 hd6 hm
    obtain ⟨adv, g2, ha, hwf2, hH2, hadv, hp2⟩ :=
      ih g1 hwf1 hH1 (fun x hx => hds x (List.mem_cons_of_mem _ hx))
    refine ⟨(if b then d else 0) + adv, g2, ?_, hwf2, hH2, ?_, ?_⟩
    · simp [advancePiece, hm, ha]
    · split <;> omega
    · rw [hp2, hp1]; omega

theorem startIndexFor_values :
    startIndexFor 0 = 0 ∧ startIndexFor 1 = 11 ∧ startIndexFor 2 = 23 ∧ startIndexFor 3 = 35 := by
  decide

/-- C9 as stated fails: player 1's piece, spawned at index 11 and advanced by
6+6+6+6+6+2 = 32 steps, is in its final lane at index 0, although 32 is not
43 + 0 and is below 43. -/
theorem full_loop_counterexample :
    (spawnAndAdvance 1 0 [6, 6, 6, 6, 6, 2] SetupPlayers).map
        (fun r => (r.1, r.2.piece 1 0)) = some (32, lanePiece 1 0) ∧
    (lanePiece 1 0).inLane 0 ∧ ¬((32 : Int) = 43 + 0) ∧ (32 : Int) < 43 := by
  decide

/-- C9 amended. A piece of player `p` spawned at `startIndexFor[p]` and then
advanced only by calls of `MovePieceBySteps` with dice in 1..6, of total advance
`adv`, is in its final lane at index `f` exactly when
`startIndexFor[p] + adv = 43 + f`, and is on the track, at index
`startIndexFor[p] + adv`, exactly when `startIndexFor[p] + adv < 43`.  The entry
indices are 0, 11, 23, 35, so the distance to the final lane is 43, 32, 20 and 8
steps for players 0, 1, 2, 3. -/
theorem lane_entry_distance (g : Game) (hwf : WellFormed g) (p i : Fin 4)
    (hH : (g.piece p i).inHome = true) (ds : List Int) (hds : ∀ d ∈ ds, 1 ≤ d ∧ d ≤ 6) :
    ∃ adv g1, spawnAndAdvance p i ds g = some (adv, g1) ∧ 0 ≤ adv ∧
      (∀ f : Int, 0 ≤ f → ((g1.piece p i).inLane f ↔ (startIndexFor p : Int) + adv = 43 + f)) ∧
      (∀ t : Int, (g1.piece p i).onTrack t ↔
        ((startIndexFor p : Int) + adv < 43 ∧ t = (startIndexFor p : Int) + adv)) ∧
      (startIndexFor 0 = 0 ∧ startIndexFor 1 = 11 ∧ startIndexFor 2 = 23 ∧
        startIndexFor 3 = 35) := by
  have hm := move_home_six g p i hH
  have hwf0 : WellFormed (g.setPiece p i (spawned (g.piece p i) p)) :=
    wellFormed_setPiece g p i _ hwf (pieceOK_spawned _ _)
  have hself : (g.setPiece p i (spawned (g.piece p i) p)).piece p i = spawned (g.piece p i) p := by
    rw [piece_setPiece]; simp
  obtain ⟨adv, g1, ha, hwf1, hH1, hadv, hp⟩ :=
    advancePiece_progress p i ds _ hwf0 (by rw [hself]; rfl) hds
  rw [hself] at hp
  have hp0 : progress (spawned (g.piece p i) p) = (startIndexFor p : Int) := by
    simp [progress, spawned]
  rw [hp0] at hp
  refine ⟨adv, g1, by simp [spawnAndAdvance, hm, ha], hadv, ?_, ?_, startIndexFor_values⟩
  · intro f hf
    rcases pieceOK_cases (hwf1 p i) with ⟨hh, -⟩ | ⟨-, hF, -, hf0, hf5⟩ | ⟨-, hF, ht0, ht42, -⟩
    · rw [hH1] at hh; exact absurd hh (by decide)
    · simp only [progress, hF, if_true] at hp
      simp only [Piece.inLane, hH1, hF, true_and]
      constructor <;> intro h <;> omega
    · simp only [progress, hF] at hp
      simp only [Piece.inLane, hH1, hF, true_and]
      constructor
      · intro h; exact absurd h.1 (by decide)
      · intro h; simp at hp; omega
  · intro t
    rcases pieceOK_cases (hwf1 p i) with ⟨hh, -⟩ | ⟨-, hF, -, hf0, hf5⟩ | ⟨-, hF, ht0, ht42, -⟩
    · rw [hH1] at hh; exact absurd hh (by decide)
    · simp only [progress, hF, if_true] at hp
      simp only [Piece.onTrack, hH1, hF, true_and]
      constructor
      · intro h; exact absurd h.1 (by decide)
      · intro h; omega
    · simp only [progress, hF] at hp
      simp only [Piece.onTrack, hH1, hF, true_and]
      simp at hp
      constructor <;> intro h <;> omega

/-- Witness of the amended C9: player 1's piece after 6+6+6+6+6+2 = 32 steps. -/
theorem lane_entry_distance_witness :
    WellFormed SetupPlayers ∧ (SetupPlayers.piece 1 0).inHome = true ∧
    ∃ adv g1, spawnAndAdvance 1 0 [6, 6, 6, 6, 6, 2] SetupPlayers = some (adv, g1) ∧
      ((g1.piece 1 0).inLane 0 ↔ (startIndexFor 1 : Int) + adv = 43 + 0) := by
  obtain ⟨adv, g1, h, -, hl, -, -⟩ := lane_entry_distance SetupPlayers (by decide) 1 0
    (by decide) [6, 6, 6, 6, 6, 2] (by decide)
  exact ⟨by decide, by decide, adv, g1, h, hl 0 (by decide)⟩

/-! ## The skip loop of the turn advance -/

/-- When every player is finished the skip loop never finds an exit, whatever the
number of tests allowed: the C++ loop does not terminate. -/
theorem skipFinished_none_of_all_finished (g : Game)
    (hall : ∀ p : Fin 4, (g.players.get p).finished = true) (fuel : Nat) :
    ∀ s : Fin 4, skipFinished g fuel s = none := by
  induction fuel with
  | zero => intro s; rfl
  | succ n ih => intro s; simp [skipFinished, hall s, ih]

/-- A player found by the skip loop is not finished. -/
theorem skipFinished_unfinished (g : Game) (fuel : Nat) :
    ∀ s q : Fin 4, skipFinished g fuel s = some q → (g.players.get q).finished = false := by
  induction fuel with
  | zero => intro s q h; simp [skipFinished] at h
  | succ n ih =>
    intro s q h
    simp only [skipFinished] at h
    split at h
    · exact ih _ _ h
    · simp only [Option.some.injEq] at h
      subst h
      simpa using ‹¬(g.players.get s).finished = true›

/-- Four tests are enough: if they all fail, every player is finished. -/
theorem all_finished_of_skipFinished_none (g : Game) (s : Fin 4)
    (h : skipFinished g 4 s = none) : ∀ p : Fin 4, (g.players.get p).finished = true := by
  simp only [skipFinished] at h
  have h0 : (g.players.get s).finished = true := by
    by_contra hc; simp [hc] at h
  have h1 : (g.players.get (s + 1)).finished = true := by
    by_contra hc; simp [h0, hc] at h
  have h2 : (g.players.get (s + 1 + 1)).finished = true := by
    by_contra hc; simp [h0, h1, hc] at h
  have h3 : (g.players.get (s + 1 + 1 + 1)).finished = true := by
    by_contra hc; simp [h0, h1, h2, hc] at h
  intro p
  have hp : ∀ a b : Fin 4, b = a ∨ b = a + 1 ∨ b = a + 1 + 1 ∨ b = a + 1 + 1 + 1 := by
    decide
  have hp := hp s p
  rcases hp with rfl | rfl | rfl | rfl <;> assumption

/-! ## Finish ranks along the frame loop -/

/-- Shape of the state after any completed call of `MovePieceBySteps`. -/
theorem move_shape (g g1 : Game) (p i : Fin 4) (d : Int) (b : Bool)
    (h : MovePieceBySteps g p i d = some (b, g1)) :
    g1 = g ∨ ∃ pc, g1 = g.setPiece p i pc ∨ g1 = finishCheck (g.setPiece p i pc) p ∨
      ∃ n, g1 = capture (g.setPiece p i pc) p n := by
  unfold MovePieceBySteps at h
  dsimp only at h
  split at h
  · split at h
    · unfold SpawnFromHome at h
      dsimp only at h
      split at h
      · simp at h
      · simp only [Option.map_some', Option.some.injEq, Prod.mk.injEq] at h
        exact Or.inr ⟨_, Or.inl h.2.symm⟩
    · simp only [Option.some.injEq, Prod.mk.injEq] at h
      exact Or.inl h.2.symm
  · split at h
    · split at h
      · simp only [Option.some.injEq, Prod.mk.injEq] at h
        exact Or.inl h.2.symm
      · split at h
        · simp at h
        · simp only [Option.some.injEq, Prod.mk.injEq] at h
          obtain ⟨-, rfl⟩ := h
          split
          · exact Or.inr ⟨_, Or.inr (Or.inl rfl)⟩
          · exact Or.inr ⟨_, Or.inl rfl⟩
    · split at h
      · split at h
        · simp at h
        · simp only [Option.some.injEq, Prod.mk.injEq] at h
          obtain ⟨-, rfl⟩ := h
          split
          · exact Or.inr ⟨_, Or.inr (Or.inr ⟨_, rfl⟩)⟩
          · exact Or.inr ⟨_, Or.inl rfl⟩
      · split at h
        · split at h
          · simp at h
          · simp only [Option.some.injEq, Prod.mk.injEq] at h
            obtain ⟨-, rfl⟩ := h
            split
            · exact Or.inr ⟨_, Or.inr (Or.inl rfl)⟩
            · exact Or.inr ⟨_, Or.inl rfl⟩
        · simp only [Option.some.injEq, Prod.mk.injEq] at h
          exact Or.inl h.2.symm

theorem sameFinish_refl (g : Game) : SameFinish g g :=
  ⟨fun _ => ⟨rfl, rfl⟩, rfl, rfl⟩

theorem sameFinish_trans {g g1 g2 : Game} (h1 : SameFinish g g1) (h2 : SameFinish g1 g2) :
    SameFinish g g2 :=
  ⟨fun q => ⟨((h2.1 q).1).trans (h1.1 q).1, ((h2.1 q).2).trans (h1.1 q).2⟩,
    h2.2.1.trans h1.2.1, h2.2.2.trans h1.2.2⟩

theorem sameFinish_setPiece (g : Game) (p i : Fin 4) (pc : Piece) :
    SameFinish g (g.setPiece p i pc) :=
  ⟨fun q => ⟨setPiece_finished g p i q pc, setPiece_finishPlace g p i q pc⟩, rfl, rfl⟩

theorem sameFinish_capture (g : Game) (p : Fin 4) (n : Int) :
    SameFinish g (capture g p n) :=
  ⟨fun q => ⟨capture_finished g p q n, capture_finishPlace g p q n⟩, rfl, rfl⟩

/-- What `finishCheck` does to the finish bookkeeping. -/
theorem finishCheck_step (g : Game) (p : Fin 4) :
    SameFinish g (finishCheck g p) ∨
    (OneFinished g (finishCheck g p) p ∧
      (finishCheck g p).playersFinishedCount = g.playersFinishedCount + 1) := by
  unfold finishCheck
  dsimp only
  split
  · rename_i hc
    simp only [Bool.and_eq_true, Bool.not_eq_true'] at hc
    refine Or.inr ⟨⟨hc.2, fun q hq => ?_, ?_, ?_, rfl⟩, rfl⟩
    · simp [Mathlib.Vector.get_set_of_ne (Ne.symm hq)]
    · simp [Mathlib.Vector.get_set_same]
    · simp [Mathlib.Vector.get_set_same]
  · exact Or.inl (sameFinish_refl g)

theorem oneFinished_of_sameFinish {g g1 g2 : Game} {p : Fin 4} (h1 : SameFinish g g1)
    (h2 : OneFinished g1 g2 p) : OneFinished g g2 p := by
  obtain ⟨a, b, c, d, e⟩ := h2
  refine ⟨a.symm ▸ ((h1.1 p).1).symm ▸ rfl, fun q hq => ?_, c, d.trans h1.2.1, ?_⟩
  · exact ⟨((b q hq).1).trans (h1.1 q).1, ((b q hq).2).trans (h1.1 q).2⟩
  · rw [e, h1.2.1]

/-- Effect of any completed call of `MovePieceBySteps` on the finish bookkeeping. -/
theorem move_finishStep (g g1 : Game) (p i : Fin 4) (d : Int) (b : Bool)
    (h : MovePieceBySteps g p i d = some (b, g1)) :
    SameFinish g g1 ∨
    (OneFinished g g1 p ∧ g1.playersFinishedCount = g.playersFinishedCount + 1) := by
  rcases move_shape g g1 p i d b h with rfl | ⟨pc, rfl | rfl | ⟨n, rfl⟩⟩
  · exact Or.inl (sameFinish_refl _)
  · exact Or.inl (sameFinish_setPiece g p i pc)
  · rcases finishCheck_step (g.setPiece p i pc) p with h1 | ⟨h1, h2⟩
    · exact Or.inl (sameFinish_trans (sameFinish_setPiece g p i pc) h1)
    · exact Or.inr ⟨oneFinished_of_sameFinish (sameFinish_setPiece g p i pc) h1, h2⟩
  · exact Or.inl (sameFinish_trans (sameFinish_setPiece g p i pc) (sameFinish_capture _ p n))

theorem finishedCount_sameFinish {g g1 : Game} (h : SameFinish g g1) :
    finishedCount g1 = finishedCount g := by
  unfold finishedCount
  congr 1
  ext q
  simp [(h.1 q).1]

theorem finishedCount_oneFinished {g g1 : Game} {p : Fin 4} (h : OneFinished g g1 p) :
    finishedCount g1 = finishedCount g + 1 := by
  obtain ⟨hp, hoth, hp1, -, -⟩ := h
  unfold finishedCount
  have hset : (Finset.univ.filter fun q : Fin 4 => (g1.players.get q).finished = true) =
      insert p (Finset.univ.filter fun q : Fin 4 => (g.players.get q).finished = true) := by
    ext q
    by_cases hq : q = p
    · subst hq; simp [hp1]
    · simp [(hoth q hq).1, hq]
  rw [hset, Finset.card_insert_of_not_mem]
  simp [hp]

theorem finishedCount_le (g : Game) : finishedCount g ≤ 4 := by
  unfold finishedCount
  exact (Finset.card_le_univ _).trans (by simp)

theorem finishedCount_eq_four {g : Game} (h : finishedCount g = 4) (p : Fin 4) :
    (g.players.get p).finished = true := by
  unfold finishedCount at h
  have huniv : (Finset.univ.filter fun q : Fin 4 => (g.players.get q).finished = true) =
      Finset.univ := by
    apply Finset.eq_univ_of_card
    simpa using h
  have : p ∈ (Finset.univ.filter fun q : Fin 4 => (g.players.get q).finished = true) := by
    rw [huniv]; exact Finset.mem_univ p
  simpa using this

theorem finishedCount_of_all {g : Game} (h : ∀ p : Fin 4, (g.players.get p).finished = true) :
    finishedCount g = 4 := by
  unfold finishedCount
  have huniv : (Finset.univ.filter fun q : Fin 4 => (g.players.get q).finished = true) =
      Finset.univ := by
    ext q; simp [h q]
  rw [huniv]; simp

theorem rankInv_sameFinish {g g1 : Game} (h : SameFinish g g1) (hi : RankInv g) :
    RankInv g1 := by
  obtain ⟨h1, h2, h3, h4, h5⟩ := hi
  have hk := finishedCount_sameFinish h
  refine ⟨fun p hp => ?_, fun p hp => ?_, fun p q hp hq he => ?_, fun n hn1 hn2 => ?_, ?_⟩
  · rw [(h.1 p).2]; exact h1 p ((h.1 p).1 ▸ hp)
  · rw [(h.1 p).2, hk]; exact h2 p ((h.1 p).1 ▸ hp)
  · rw [(h.1 p).2, (h.1 q).2] at he
    exact h3 p q ((h.1 p).1 ▸ hp) ((h.1 q).1 ▸ hq) he
  · rw [hk] at hn2
    obtain ⟨p, hp, hpl⟩ := h4 n hn1 hn2
    exact ⟨p, (h.1 p).1.trans hp, (h.1 p).2.trans hpl⟩
  · rw [h.2.1, hk]; exact h5

theorem rankInv_oneFinished {g g1 : Game} {p : Fin 4} (h : OneFinished g g1 p)
    (hi : RankInv g) : RankInv g1 := by
  have hk := finishedCount_oneFinished h
  obtain ⟨hp, hoth, hp1, hpl, hnext⟩ := h
  obtain ⟨h1, h2, h3, h4, h5⟩ := hi
  refine ⟨fun q hq => ?_, fun q hq => ?_, fun q r hq hr he => ?_, fun n hn1 hn2 => ?_, ?_⟩
  · by_cases hqp : q = p
    · subst hqp; rw [hp1] at hq; exact absurd hq (by decide)
    · rw [(hoth q hqp).2]; exact h1 q ((hoth q hqp).1 ▸ hq)
  · by_cases hqp : q = p
    · subst hqp; rw [hpl, h5, hk]; push_cast; omega
    · have := h2 q ((hoth q hqp).1 ▸ hq)
      rw [(hoth q hqp).2, hk]; push_cast; omega
  · by_cases hqp : q = p <;> by_cases hrp : r = p
    · rw [hqp, hrp]
    · exfalso
      have := h2 r ((hoth r hrp).1 ▸ hr)
      rw [hqp, hpl, (hoth r hrp).2, h5] at he
      omega
    · exfalso
      have := h2 q ((hoth q hqp).1 ▸ hq)
      rw [hrp, hpl, (hoth q hqp).2, h5] at he
      omega
    · rw [(hoth q hqp).2, (hoth r hrp).2] at he
      exact h3 q r ((hoth q hqp).1 ▸ hq) ((hoth r hrp).1 ▸ hr) he
  · rw [hk] at hn2
    push_cast at hn2
    by_cases hlast : n = (finishedCount g : Int) + 1
    · exact ⟨p, hp1, by rw [hpl, h5, hlast]⟩
    · obtain ⟨q, hq, hql⟩ := h4 n hn1 (by omega)
      have hqp : q ≠ p := by
        rintro rfl; rw [hp] at hq; exact absurd hq (by decide)
      exact ⟨q, (hoth q hqp).1.trans hq, (hoth q hqp).2.trans hql⟩
  · rw [hnext, h5, hk]; push_cast; rfl

theorem rankStep_refl (g : Game) : RankStep g g :=
  ⟨fun _ hp => ⟨hp, rfl⟩, fun p hp hp1 => by rw [hp] at hp1; exact absurd hp1 (by decide),
    le_refl _⟩

theorem rankStep_sameFinish {g g1 : Game} (h : SameFinish g g1) : RankStep g g1 := by
  refine ⟨fun p hp => ⟨(h.1 p).1.trans hp, (h.1 p).2⟩, fun p hp hp1 => ?_, by rw [h.2.1]⟩
  rw [(h.1 p).1, hp] at hp1; exact absurd hp1 (by decide)

theorem rankStep_oneFinished {g g1 : Game} {p : Fin 4} (h : OneFinished g g1 p) :
    RankStep g g1 := by
  obtain ⟨hp, hoth, hp1, hpl, hnext⟩ := h
  refine ⟨fun q hq => ?_, fun q hq hq1 => ?_, by rw [hnext]; omega⟩
  · have hqp : q ≠ p := by
      rintro rfl; rw [hp] at hq; exact absurd hq (by decide)
    exact ⟨(hoth q hqp).1.trans hq, (hoth q hqp).2⟩
  · by_cases hqp : q = p
    · subst hqp; rw [hpl, hnext]; omega
    · rw [(hoth q hqp).1, hq] at hq1; exact absurd hq1 (by decide)

theorem rankStep_trans {g g1 g2 : Game} (h1 : RankStep g g1) (h2 : RankStep g1 g2) :
    RankStep g g2 := by
  obtain ⟨a1, b1, c1⟩ := h1
  obtain ⟨a2, b2, c2⟩ := h2
  refine ⟨fun p hp => ?_, fun p hp hp2 => ?_, c1.trans c2⟩
  · obtain ⟨x, y⟩ := a1 p hp
    obtain ⟨x2, y2⟩ := a2 p x
    exact ⟨x2, y2.trans y⟩
  · cases hp1 : (g1.players.get p).finished
    · obtain ⟨x, y⟩ := b2 p hp1 hp2
      exact ⟨c1.trans x, y⟩
    · obtain ⟨x, y⟩ := b1 p hp hp1
      obtain ⟨x2, y2⟩ := a2 p hp1
      rw [y2]
      exact ⟨x, lt_of_lt_of_le y c2⟩

theorem sameFinish_of_eq {g g1 : Game} (hp : g1.players = g.players)
    (hn : g1.nextFinishPlace = g.nextFinishPlace)
    (hc : g1.playersFinishedCount = g.playersFinishedCount) : SameFinish g g1 :=
  ⟨fun q => by rw [hp]; exact ⟨rfl, rfl⟩, hn, hc⟩

theorem oneFinished_sameFinish {g g1 g2 : Game} {p : Fin 4} (h1 : OneFinished g g1 p)
    (h2 : SameFinish g1 g2) : OneFinished g g2 p := by
  obtain ⟨a, b, c, d, e⟩ := h1
  refine ⟨a, fun q hq => ?_, (h2.1 p).1.trans c, (h2.1 p).2.trans d, h2.2.1.trans e⟩
  exact ⟨(h2.1 q).1.trans (b q hq).1, (h2.1 q).2.trans (b q hq).2⟩

theorem turnFinish_sameFinish {g g1 g2 : Game} (h1 : TurnFinish g g1) (h2 : SameFinish g1 g2) :
    TurnFinish g g2 := by
  rcases h1 with h | ⟨p, h, hc⟩
  · exact Or.inl (sameFinish_trans h h2)
  · exact Or.inr ⟨p, oneFinished_sameFinish h h2, h2.2.2.trans hc⟩

theorem sameFinish_turnFinish {g g1 g2 : Game} (h1 : SameFinish g g1) (h2 : TurnFinish g1 g2) :
    TurnFinish g g2 := by
  rcases h2 with h | ⟨p, h, hc⟩
  · exact Or.inl (sameFinish_trans h1 h)
  · exact Or.inr ⟨p, oneFinished_of_sameFinish h1 h, by rw [hc, h1.2.2]⟩

theorem sameFinish_diceTick (inp : FrameInput) (g : Game) : SameFinish g (diceTick inp g) := by
  unfold diceTick
  split
  · split
    · exact sameFinish_of_eq rfl rfl rfl
    · split
      · exact sameFinish_of_eq rfl rfl rfl
      · exact sameFinish_refl g
  · exact sameFinish_refl g

theorem sameFinish_startRoll (inp : FrameInput) (g : Game) : SameFinish g (startRoll inp g) :=
  sameFinish_of_eq rfl rfl rfl

theorem sameFinish_advanceTurn {g g1 : Game} (h : advanceTurn g = some g1) :
    SameFinish g g1 := by
  unfold advanceTurn at h
  cases hs : skipFinished g 4 (g.currentPlayer + 1) with
  | none => rw [hs] at h; simp at h
  | some nxt =>
    rw [hs] at h
    simp only [Option.map_some', Option.some.injEq] at h
    subst h
    exact sameFinish_of_eq rfl rfl rfl

theorem sameFinish_consumeRoll {g g1 : Game} (h : consumeRoll g = some g1) :
    SameFinish g g1 := by
  unfold consumeRoll at h
  dsimp only at h
  split at h
  · have h1 := sameFinish_advanceTurn h
    exact sameFinish_trans (sameFinish_of_eq rfl rfl rfl) h1
  · simp only [Option.some.injEq] at h
    subst h
    exact sameFinish_of_eq rfl rfl rfl

theorem turnFinish_move {g g1 : Game} {p i : Fin 4} {d : Int} {b : Bool}
    (h : MovePieceBySteps g p i d = some (b, g1)) : TurnFinish g g1 := by
  rcases move_finishStep g g1 p i d b h with h1 | ⟨h1, h2⟩
  · exact Or.inl h1
  · exact Or.inr ⟨p, h1, h2⟩

theorem turnFinish_humanSelect {inp : FrameInput} {g g1 : Game}
    (h : humanSelect inp g = some g1) : TurnFinish g g1 := by
  unfold humanSelect at h
  dsimp only at h
  split at h
  · split at h
    · simp only [Option.some.injEq] at h
      subst h
      exact Or.inl (sameFinish_refl _)
    · split at h
      · simp at h
      · rename_i idx _ ok g2 hm
        split at h
        · exact turnFinish_sameFinish (turnFinish_move hm) (sameFinish_consumeRoll h)
        · simp only [Option.some.injEq] at h
          subst h
          exact turnFinish_move hm
  · have h1 := sameFinish_advanceTurn h
    exact Or.inl (sameFinish_trans (sameFinish_of_eq rfl rfl rfl) h1)

theorem turnFinish_aiSelect {inp : FrameInput} {g g1 : Game}
    (h : aiSelect inp g = some g1) : TurnFinish g g1 := by
  unfold aiSelect at h
  dsimp only at h
  split at h
  · simp only [Option.some_bind] at h
    exact Or.inl (sameFinish_consumeRoll h)
  · rename_i first rest _
    cases hp : aiPick inp g (first :: rest) first with
    | none => rw [hp] at h; simp at h
    | some pick =>
      rw [hp] at h
      simp only [Option.some_bind] at h
      cases hm : MovePieceBySteps g g.currentPlayer pick g.rollResult with
      | none => rw [hm] at h; simp at h
      | some r =>
        obtain ⟨b, g2⟩ := r
        rw [hm] at h
        simp only [Option.map_some', Option.some_bind] at h
        exact turnFinish_sameFinish (turnFinish_move hm) (sameFinish_consumeRoll h)

theorem turnFinish_turnHandling {inp : FrameInput} {g g1 : Game}
    (h : turnHandling inp g = some g1) : TurnFinish g g1 := by
  unfold turnHandling at h
  split at h
  · dsimp only at h
    have hmouse : ∀ g2, (if inp.mouseReleased = true then
          if (!g.hasRolled && inp.onRollBtn) = true then some (startRoll inp g)
          else if g.hasRolled = true then humanSelect inp g else some g
        else some g) = some g2 → TurnFinish g g2 := by
      intro g2 h2
      split at h2
      · split at h2
        · simp only [Option.some.injEq] at h2
          subst h2
          exact Or.inl (sameFinish_startRoll inp g)
        · split at h2
          · exact turnFinish_humanSelect h2
          · simp only [Option.some.injEq] at h2
            subst h2
            exact Or.inl (sameFinish_refl _)
      · simp only [Option.some.injEq] at h2
        subst h2
        exact Or.inl (sameFinish_refl _)
    rw [Option.map_eq_some'] at h
    obtain ⟨g2, h2, h3⟩ := h
    have ht := hmouse g2 h2
    subst h3
    split
    · exact turnFinish_sameFinish ht (sameFinish_startRoll inp g2)
    · exact ht
  · split at h
    · split at h
      · simp only [Option.some.injEq] at h
        subst h
        exact Or.inl (sameFinish_startRoll inp g)
      · split at h
        · exact turnFinish_aiSelect h
        · simp only [Option.some.injEq] at h
          subst h
          exact Or.inl (sameFinish_refl _)
    · simp only [Option.some.injEq] at h
      subst h
      exact Or.inl (sameFinish_refl _)

theorem autoFinishOne_step (g : Game) (p : Fin 4) :
    ((g.players.get p).finished = true ∧ autoFinishOne g p = g) ∨
    OneFinished g (autoFinishOne g p) p := by
  unfold autoFinishOne
  cases hf : (g.players.get p).finished
  · refine Or.inr ⟨hf, fun q hq => ?_, ?_, ?_, ?_⟩
    · simp [Mathlib.Vector.get_set_of_ne (Ne.symm hq)]
    · simp [Mathlib.Vector.get_set_same]
    · simp [Mathlib.Vector.get_set_same]
    · simp
  · exact Or.inl ⟨rfl, by simp⟩

theorem autoFinishOne_count (g : Game) (p : Fin 4) :
    (autoFinishOne g p).playersFinishedCount = g.playersFinishedCount := by
  unfold autoFinishOne
  split <;> rfl

theorem autoFinishOne_pieces (g : Game) (p q : Fin 4) :
    ((autoFinishOne g p).players.get q).pieces = (g.players.get q).pieces := by
  unfold autoFinishOne
  split
  · by_cases hq : q = p
    · subst hq; simp [Mathlib.Vector.get_set_same]
    · simp [Mathlib.Vector.get_set_of_ne (Ne.symm hq)]
  · rfl

theorem autoFinishOne_finished (g : Game) (p : Fin 4) :
    ((autoFinishOne g p).players.get p).finished = true := by
  rcases autoFinishOne_step g p with ⟨h1, h2⟩ | h
  · rw [h2]; exact h1
  · exact h.2.2.1

theorem autoFinish_fold (l : List (Fin 4)) :
    ∀ g : Game, RankInv g →
      RankInv (l.foldl autoFinishOne g) ∧ RankStep g (l.foldl autoFinishOne g) ∧
      (l.foldl autoFinishOne g).playersFinishedCount = g.playersFinishedCount ∧
      (∀ p ∈ l, ((l.foldl autoFinishOne g).players.get p).finished = true) ∧
      (∀ q : Fin 4, ((l.foldl autoFinishOne g).players.get q).pieces = (g.players.get q).pieces) := by
  induction l with
  | nil =>
    intro g hi
    exact ⟨hi, rankStep_refl g, rfl, fun p hp => absurd hp (List.not_mem_nil p), fun _ => rfl⟩
  | cons p l ih =>
    intro g hi
    have hi1 : RankInv (autoFinishOne g p) ∧ RankStep g (autoFinishOne g p) := by
      rcases autoFinishOne_step g p with ⟨-, h2⟩ | h
      · rw [h2]; exact ⟨hi, rankStep_refl g⟩
      · exact ⟨rankInv_oneFinished h hi, rankStep_oneFinished h⟩
    obtain ⟨a, b, c, d, e⟩ := ih (autoFinishOne g p) hi1.1
    simp only [List.foldl_cons]
    refine ⟨a, rankStep_trans hi1.2 b, c.trans (autoFinishOne_count g p), ?_, ?_⟩
    · intro q hq
      rcases List.mem_cons.1 hq with rfl | hq
      · exact (b.1 q (autoFinishOne_finished g q)).1
      · exact d q hq
    · intro q
      exact (e q).trans (autoFinishOne_pieces g p q)

/-- The auto-finish step turns a mid-frame state satisfying the invariants into a
top-of-frame state satisfying them; once it fires, all four players are finished. -/
theorem autoFinish_spec (g : Game) (hi : RankInv g) (hc : CountMid g) :
    RankInv (autoFinish g) ∧ CountTop (autoFinish g) ∧ RankStep g (autoFinish g) ∧
    (∀ q : Fin 4, ((autoFinish g).players.get q).pieces = (g.players.get q).pieces) ∧
    (finishedCount g = 3 → ∀ p : Fin 4, ((autoFinish g).players.get p).finished = true) := by
  unfold autoFinish
  split
  · rename_i h3
    obtain ⟨a, b, c, d, e⟩ := autoFinish_fold (List.finRange 4) g hi
    have hall : ∀ p : Fin 4,
        (((List.finRange 4).foldl autoFinishOne g).players.get p).finished = true :=
      fun p => d p (List.mem_finRange p)
    refine ⟨a, Or.inr ⟨?_, finishedCount_of_all hall⟩, b, e, fun _ => hall⟩
    rw [c]
    rcases hc with ⟨h1, h2⟩ | ⟨h1, -⟩
    · rw [h1] at h3 ⊢
      have : (3 : Int) ≤ (finishedCount g : Int) := h3
      have h4 : (finishedCount g : Int) ≤ 3 := by exact_mod_cast h2
      omega
    · exact h1
  · rename_i h3
    refine ⟨hi, ?_, rankStep_refl g, fun _ => rfl, fun hk => ?_⟩
    · rcases hc with ⟨h1, h2⟩ | ⟨h1, -⟩
      · refine Or.inl ⟨h1, ?_⟩
        rw [h1] at h3
        have : ¬ (3 : Int) ≤ (finishedCount g : Int) := h3
        omega
      · rw [h1] at h3; exact absurd (le_refl (3 : Int)) h3
    · exfalso
      rcases hc with ⟨h1, -⟩ | ⟨-, h2⟩
      · rw [h1, hk] at h3; exact h3 (le_refl _)
      · omega

/-- Turn handling takes a top-of-frame state satisfying the invariants to a
mid-frame state satisfying them. -/
theorem turnFinish_spec {g g1 : Game} (h : TurnFinish g g1) (hi : RankInv g)
    (hc : CountTop g) : RankInv g1 ∧ CountMid g1 ∧ RankStep g g1 := by
  rcases h with h | ⟨p, h, hcnt⟩
  · have hk := finishedCount_sameFinish h
    refine ⟨rankInv_sameFinish h hi, ?_, rankStep_sameFinish h⟩
    rcases hc with ⟨h1, h2⟩ | ⟨h1, h2⟩
    · exact Or.inl ⟨by rw [h.2.2, hk, h1], by omega⟩
    · exact Or.inr ⟨by rw [h.2.2, h1], by omega⟩
  · have hk := finishedCount_oneFinished h
    refine ⟨rankInv_oneFinished h hi, ?_, rankStep_oneFinished h⟩
    rcases hc with ⟨h1, h2⟩ | ⟨-, h2⟩
    · refine Or.inl ⟨?_, by omega⟩
      rw [hcnt, hk, h1]; push_cast; rfl
    · have := finishedCount_eq_four h2 p
      rw [h.1] at this
      exact absurd this (by decide)

theorem rankInv_setupPlayers : RankInv SetupPlayers ∧ CountTop SetupPlayers := by
  have hk : finishedCount SetupPlayers = 0 := by decide
  have hf : ∀ p : Fin 4, (SetupPlayers.players.get p).finished = false := by decide
  have hp : ∀ p : Fin 4, (SetupPlayers.players.get p).finishPlace = 0 := by decide
  refine ⟨⟨fun p _ => hp p, fun p h => ?_, fun p q h => ?_, fun n h1 h2 => ?_, ?_⟩, ?_⟩
  · rw [hf p] at h; exact absurd h (by decide)
  · rw [hf p] at h; exact absurd h (by decide)
  · rw [hk] at h2; exfalso; push_cast at h2; omega
  · rw [hk]; rfl
  · exact Or.inl ⟨by rw [hk]; rfl, by omega⟩

theorem frame_split {inp : FrameInput} {g g1 : Game} (h : frame inp g = some g1) :
    ∃ g2, turnHandling inp (diceTick inp g) = some g2 ∧ g1 = autoFinish g2 := by
  unfold frame at h
  rw [Option.map_eq_some'] at h
  obtain ⟨g2, h2, h3⟩ := h
  exact ⟨g2, h2, h3.symm⟩

theorem turnHandling_mid {inp : FrameInput} {g g2 : Game} (hi : RankInv g) (hc : CountTop g)
    (h : turnHandling inp (diceTick inp g) = some g2) :
    RankInv g2 ∧ CountMid g2 ∧ RankStep g g2 :=
  turnFinish_spec (sameFinish_turnFinish (sameFinish_diceTick inp g) (turnFinish_turnHandling h))
    hi hc

theorem reachable_rankInv {g : Game} (h : Reachable g) : RankInv g ∧ CountTop g := by
  induction h with
  | init => exact rankInv_setupPlayers
  | step inp _ hf ih =>
    obtain ⟨g2, h2, rfl⟩ := frame_split hf
    obtain ⟨a, b, -⟩ := turnHandling_mid ih.1 ih.2 h2
    obtain ⟨c, d, -⟩ := autoFinish_spec g2 a b
    exact ⟨c, d⟩

theorem reachable_runFrames (inps : List FrameInput) :
    ∀ g g1 : Game, Reachable g → runFrames inps g = some g1 → Reachable g1 := by
  induction inps with
  | nil =>
    intro g g1 hr h
    simp only [runFrames, Option.some.injEq] at h
    exact h ▸ hr
  | cons inp rest ih =>
    intro g g1 hr h
    simp only [runFrames] at h
    cases hf : frame inp g with
    | none => rw [hf] at h; simp at h
    | some g2 =>
      rw [hf] at h
      simp only [Option.some_bind] at h
      exact ih g2 g1 (Reachable.step inp hr hf) h

theorem runFrames_some_of_map {α : Type} {inps : List FrameInput} {g : Game} {f : Game → α}
    {a : α} (h : (runFrames inps g).map f = some a) :
    ∃ g1, runFrames inps g = some g1 ∧ f g1 = a := by
  rw [Option.map_eq_some'] at h
  exact h

theorem finishCheck_turnFields (g : Game) (p : Fin 4) :
    (finishCheck g p).currentPlayer = g.currentPlayer ∧
    (finishCheck g p).rollResult = g.rollResult ∧
    (finishCheck g p).hasRolled = g.hasRolled := by
  unfold finishCheck
  dsimp only
  split <;> exact ⟨rfl, rfl, rfl⟩

/-- Any completed call of `MovePieceBySteps` leaves the turn variables alone. -/
theorem move_turnFields (g g1 : Game) (p i : Fin 4) (d : Int) (b : Bool)
    (h : MovePieceBySteps g p i d = some (b, g1)) :
    g1.currentPlayer = g.currentPlayer ∧ g1.rollResult = g.rollResult ∧
    g1.hasRolled = g.hasRolled := by
  rcases move_shape g g1 p i d b h with rfl | ⟨pc, rfl | rfl | ⟨n, rfl⟩⟩
  · exact ⟨rfl, rfl, rfl⟩
  · exact ⟨rfl, rfl, rfl⟩
  · exact finishCheck_turnFields _ p
  · exact ⟨rfl, rfl, rfl⟩

/-! ## The frame loop keeps the state well formed and completes -/

theorem finishCheck_diceFields (g : Game) (p : Fin 4) :
    (finishCheck g p).diceRollingAnim = g.diceRollingAnim ∧
    (finishCheck g p).diceFaceDuring = g.diceFaceDuring := by
  unfold finishCheck
  dsimp only
  split <;> exact ⟨rfl, rfl⟩

/-- Any completed call of `MovePieceBySteps` leaves the dice variables alone. -/
theorem move_diceFields (g g1 : Game) (p i : Fin 4) (d : Int) (b : Bool)
    (h : MovePieceBySteps g p i d = some (b, g1)) :
    g1.diceRollingAnim = g.diceRollingAnim ∧ g1.diceFaceDuring = g.diceFaceDuring := by
  rcases move_shape g g1 p i d b h with rfl | ⟨pc, rfl | rfl | ⟨n, rfl⟩⟩
  · exact ⟨rfl, rfl⟩
  · exact ⟨rfl, rfl⟩
  · exact finishCheck_diceFields _ p
  · exact ⟨rfl, rfl⟩

theorem wellFormed_of_pieces {g g1 : Game}
    (h : ∀ q : Fin 4, (g1.players.get q).pieces = (g.players.get q).pieces)
    (hwf : WellFormed g) : WellFormed g1 := by
  intro p i
  have := hwf p i
  unfold Game.piece at this ⊢
  rw [h p]; exact this

theorem turnInv_diceTick (inp : FrameInput) {g : Game} (h : TurnInv g) :
    TurnInv (diceTick inp g) := by
  obtain ⟨hwf, h1, h6, hr⟩ := h
  unfold diceTick
  split
  · split
    · exact ⟨hwf, h1, h6, fun _ => ⟨h1, h6⟩⟩
    · split
      · refine ⟨hwf, ?_, ?_, hr⟩
        · show (1 : Int) ≤ (inp.flickerFace.val : Int) + 1
          omega
        · show (inp.flickerFace.val : Int) + 1 ≤ 6
          have := inp.flickerFace.isLt
          omega
      · exact ⟨hwf, h1, h6, hr⟩
  · exact ⟨hwf, h1, h6, hr⟩

theorem turnInv_startRoll (inp : FrameInput) {g : Game} (h : TurnInv g) :
    TurnInv (startRoll inp g) := by
  obtain ⟨hwf, -, -, hr⟩ := h
  refine ⟨hwf, ?_, ?_, hr⟩
  · show (1 : Int) ≤ (inp.rollFace.val : Int) + 1
    omega
  · show (inp.rollFace.val : Int) + 1 ≤ 6
    have := inp.rollFace.isLt
    omega

theorem turnInv_clearRoll {g : Game} (h : TurnInv g) :
    TurnInv { g with hasRolled := false, rollResult := 0 } := by
  obtain ⟨hwf, h1, h6, -⟩ := h
  exact ⟨hwf, h1, h6, fun hx => absurd hx Bool.false_ne_true⟩

theorem turnInv_advanceTurn {g g1 : Game} (h : TurnInv g) (ha : advanceTurn g = some g1) :
    TurnInv g1 := by
  unfold advanceTurn at ha
  rw [Option.map_eq_some'] at ha
  obtain ⟨nxt, -, rfl⟩ := ha
  exact h

theorem turnInv_consumeRoll {g g1 : Game} (h : TurnInv g) (hc : consumeRoll g = some g1) :
    TurnInv g1 := by
  unfold consumeRoll at hc
  dsimp only at hc
  split at hc
  · exact turnInv_advanceTurn (turnInv_clearRoll h) hc
  · simp only [Option.some.injEq] at hc
    subst hc
    exact turnInv_clearRoll h

theorem turnInv_move {g g1 : Game} {p i : Fin 4} {b : Bool} (h : TurnInv g)
    (hr : g.hasRolled = true)
    (hm : MovePieceBySteps g p i g.rollResult = some (b, g1)) : TurnInv g1 := by
  obtain ⟨hwf, h1, h6, hroll⟩ := h
  obtain ⟨hd1, hd6⟩ := hroll hr
  obtain ⟨-, a2, a3⟩ := move_turnFields g g1 p i _ b hm
  obtain ⟨-, b2⟩ := move_diceFields g g1 p i _ b hm
  refine ⟨move_wellFormed g g1 p i _ b hwf hd1 hd6 hm, by rw [b2]; exact h1,
    by rw [b2]; exact h6, fun _ => ?_⟩
  rw [a2]; exact ⟨hd1, hd6⟩

theorem turnInv_humanSelect {inp : FrameInput} {g g1 : Game} (h : TurnInv g)
    (hr : g.hasRolled = true) (hs : humanSelect inp g = some g1) : TurnInv g1 := by
  unfold humanSelect at hs
  dsimp only at hs
  split at hs
  · split at hs
    · simp only [Option.some.injEq] at hs
      subst hs
      exact h
    · split at hs
      · simp at hs
      · rename_i idx _ ok g2 hm
        have h2 := turnInv_move h hr hm
        split at hs
        · exact turnInv_consumeRoll h2 hs
        · simp only [Option.some.injEq] at hs
          subst hs
          exact h2
  · exact turnInv_advanceTurn (turnInv_clearRoll h) hs

theorem turnInv_aiSelect {inp : FrameInput} {g g1 : Game} (h : TurnInv g)
    (hr : g.hasRolled = true) (hs : aiSelect inp g = some g1) : TurnInv g1 := by
  unfold aiSelect at hs
  dsimp only at hs
  split at hs
  · simp only [Option.some_bind] at hs
    exact turnInv_consumeRoll h hs
  · rename_i first rest _
    cases hp : aiPick inp g (first :: rest) first with
    | none => rw [hp] at hs; simp at hs
    | some pick =>
      rw [hp] at hs
      simp only [Option.some_bind] at hs
      cases hm : MovePieceBySteps g g.currentPlayer pick g.rollResult with
      | none => rw [hm] at hs; simp at hs
      | some r =>
        obtain ⟨b, g2⟩ := r
        rw [hm] at hs
        simp only [Option.map_some', Option.some_bind] at hs
        exact turnInv_consumeRoll (turnInv_move h hr hm) hs

theorem turnInv_turnHandling {inp : FrameInput} {g g1 : Game} (h : TurnInv g)
    (ht : turnHandling inp g = some g1) : TurnInv g1 := by
  unfold turnHandling at ht
  split at ht
  · dsimp only at ht
    have hmouse : ∀ g2, (if inp.mouseReleased = true then
          if (!g.hasRolled && inp.onRollBtn) = true then some (startRoll inp g)
          else if g.hasRolled = true then humanSelect inp g else some g
        else some g) = some g2 → TurnInv g2 := by
      intro g2 h2
      split at h2
      · split at h2
        · simp only [Option.some.injEq] at h2
          subst h2
          exact turnInv_startRoll inp h
        · split at h2
          · rename_i hr
            exact turnInv_humanSelect h hr h2
          · simp only [Option.some.injEq] at h2
            subst h2
            exact h
      · simp only [Option.some.injEq] at h2
        subst h2
        exact h
    rw [Option.map_eq_some'] at ht
    obtain ⟨g2, h2, h3⟩ := ht
    have hi := hmouse g2 h2
    subst h3
    split
    · exact turnInv_startRoll inp hi
    · exact hi
  · split at ht
    · split at ht
      · simp only [Option.some.injEq] at ht
        subst ht
        exact turnInv_startRoll inp h
      · split at ht
        · rename_i hr
          exact turnInv_aiSelect h hr ht
        · simp only [Option.some.injEq] at ht
          subst ht
          exact h
    · simp only [Option.some.injEq] at ht
      subst ht
      exact h

theorem autoFinishOne_turnFields (g : Game) (p : Fin 4) :
    (autoFinishOne g p).currentPlayer = g.currentPlayer ∧
    (autoFinishOne g p).rollResult = g.rollResult ∧
    (autoFinishOne g p).hasRolled = g.hasRolled ∧
    (autoFinishOne g p).diceRollingAnim = g.diceRollingAnim ∧
    (autoFinishOne g p).diceFaceDuring = g.diceFaceDuring := by
  unfold autoFinishOne
  split <;> exact ⟨rfl, rfl, rfl, rfl, rfl⟩

theorem autoFinish_turnFields (g : Game) :
    (autoFinish g).currentPlayer = g.currentPlayer ∧
    (autoFinish g).rollResult = g.rollResult ∧
    (autoFinish g).hasRolled = g.hasRolled ∧
    (autoFinish g).diceRollingAnim = g.diceRollingAnim ∧
    (autoFinish g).diceFaceDuring = g.diceFaceDuring ∧
    ∀ q : Fin 4, ((autoFinish g).players.get q).pieces = (g.players.get q).pieces := by
  have hfold : ∀ (l : List (Fin 4)) (g : Game),
      (l.foldl autoFinishOne g).currentPlayer = g.currentPlayer ∧
      (l.foldl autoFinishOne g).rollResult = g.rollResult ∧
      (l.foldl autoFinishOne g).hasRolled = g.hasRolled ∧
      (l.foldl autoFinishOne g).diceRollingAnim = g.diceRollingAnim ∧
      (l.foldl autoFinishOne g).diceFaceDuring = g.diceFaceDuring ∧
      ∀ q : Fin 4, ((l.foldl autoFinishOne g).players.get q).pieces = (g.players.get q).pieces := by
    intro l
    induction l with
    | nil => intro g; exact ⟨rfl, rfl, rfl, rfl, rfl, fun _ => rfl⟩
    | cons p l ih =>
      intro g
      obtain ⟨a1, a2, a3, a4, a5, a6⟩ := ih (autoFinishOne g p)
      obtain ⟨b1, b2, b3, b4, b5⟩ := autoFinishOne_turnFields g p
      simp only [List.foldl_cons]
      exact ⟨a1.trans b1, a2.trans b2, a3.trans b3, a4.trans b4, a5.trans b5,
        fun q => (a6 q).trans (autoFinishOne_pieces g p q)⟩
  unfold autoFinish
  split
  · exact hfold _ g
  · exact ⟨rfl, rfl, rfl, rfl, rfl, fun _ => rfl⟩

theorem turnInv_autoFinish {g : Game} (h : TurnInv g) : TurnInv (autoFinish g) := by
  obtain ⟨hwf, h1, h6, hr⟩ := h
  obtain ⟨-, a2, a3, -, a5, a6⟩ := autoFinish_turnFields g
  refine ⟨wellFormed_of_pieces a6 hwf, by rw [a5]; exact h1, by rw [a5]; exact h6, ?_⟩
  rw [a2, a3]; exact hr

theorem turnInv_setupPlayers : TurnInv SetupPlayers :=
  ⟨setupPlayers_wellFormed, by decide, by decide, by decide⟩

/-- Every state at the top of the frame loop is well formed, with the die face
and a pending roll in 1..6. -/
theorem reachable_turnInv {g : Game} (h : Reachable g) : TurnInv g := by
  induction h with
  | init => exact turnInv_setupPlayers
  | step inp _ hf ih =>
    obtain ⟨g2, h2, rfl⟩ := frame_split hf
    exact turnInv_autoFinish (turnInv_turnHandling (turnInv_diceTick inp ih) h2)

theorem exists_unfinished_of_count_lt {g : Game} (h : finishedCount g < 4) :
    ∃ p : Fin 4, (g.players.get p).finished = false := by
  by_contra hno
  have hall : ∀ p : Fin 4, (g.players.get p).finished = true := by
    intro p
    cases hp : (g.players.get p).finished
    · exact absurd ⟨p, hp⟩ hno
    · rfl
  have := finishedCount_of_all hall
  omega

theorem finishedCount_turnFinish_le {g g1 : Game} (h : TurnFinish g g1) :
    finishedCount g1 ≤ finishedCount g + 1 := by
  rcases h with h | ⟨p, h, -⟩
  · rw [finishedCount_sameFinish h]; omega
  · rw [finishedCount_oneFinished h]

/-- The turn advance completes as soon as one player is unfinished, and then
selects an unfinished player. -/
theorem advanceTurn_some {g : Game} (h : ∃ p : Fin 4, (g.players.get p).finished = false) :
    ∃ g1, advanceTurn g = some g1 ∧ (g1.players.get g1.currentPlayer).finished = false ∧
      g1.players = g.players := by
  unfold advanceTurn
  cases hs : skipFinished g 4 (g.currentPlayer + 1) with
  | none =>
    obtain ⟨p, hp⟩ := h
    have := all_finished_of_skipFinished_none g _ hs p
    rw [hp] at this
    exact absurd this (by decide)
  | some nxt =>
    exact ⟨_, rfl, skipFinished_unfinished g 4 _ nxt hs, rfl⟩

theorem consumeRoll_some {g : Game} (h : finishedCount g < 4) :
    ∃ g1, consumeRoll g = some g1 := by
  unfold consumeRoll
  dsimp only
  split
  · have hk : finishedCount { g with hasRolled := false, rollResult := 0 } < 4 := h
    obtain ⟨g1, h1, -⟩ := advanceTurn_some (exists_unfinished_of_count_lt hk)
    exact ⟨g1, h1⟩
  · exact ⟨_, rfl⟩

theorem aiScore_some (inp : FrameInput) {g : Game} (h : TurnInv g) (hr : g.hasRolled = true)
    (idx : Fin 4) : ∃ s, aiScore inp g idx = some s := by
  obtain ⟨hwf, -, -, hroll⟩ := h
  obtain ⟨hd1, hd6⟩ := hroll hr
  unfold aiScore
  dsimp only
  rcases pieceOK_cases (hwf g.currentPlayer idx) with
    ⟨hH, hF, -⟩ | ⟨hH, hF, -⟩ | ⟨hH, hF, ht0, ht42, -⟩
  · simp [hH, hF]
  · simp [hH, hF]
  · by_cases h43 : (g.piece g.currentPlayer idx).outerIdx + g.rollResult < 43
    · obtain ⟨c, hc⟩ := outerAt_some (k := (g.piece g.currentPlayer idx).outerIdx + g.rollResult)
        (by omega) h43
      simp [hH, hF, L_eq, h43, hc]
    · simp [hH, hF, L_eq, h43]

theorem aiPick_some (inp : FrameInput) {g : Game} (h : TurnInv g) (hr : g.hasRolled = true)
    (legal : List (Fin 4)) : ∀ acc : Fin 4 × Int, ∃ r,
      legal.foldlM
        (fun (acc : Fin 4 × Int) idx =>
          (aiScore inp g idx).map fun score => if score > acc.2 then (idx, score) else acc)
        acc = some r := by
  induction legal with
  | nil => intro acc; exact ⟨acc, rfl⟩
  | cons a l ih =>
    intro acc
    obtain ⟨s, hs⟩ := aiScore_some inp h hr a
    simp only [List.foldlM_cons, hs, Option.map_some', Option.some_bind, Option.bind_eq_bind]
    exact ih _

/-- While fewer than four players are finished every frame completes: no read is
out of range and the turn advance terminates. -/
theorem frame_completes {g : Game} (h : Reachable g) (hk : finishedCount g ≠ 4)
    (inp : FrameInput) : ∃ g1, frame inp g = some g1 := by
  obtain ⟨hri, hct⟩ := reachable_rankInv h
  have hk2 : finishedCount g ≤ 2 := by
    rcases hct with ⟨-, h2⟩ | ⟨-, h4⟩
    · exact h2
    · exact absurd h4 hk
  have hti := turnInv_diceTick inp (reachable_turnInv h)
  have hkd : finishedCount (diceTick inp g) ≤ 2 := by
    rw [finishedCount_sameFinish (sameFinish_diceTick inp g)]; exact hk2
  show ∃ g1, (turnHandling inp (diceTick inp g)).map autoFinish = some g1
  generalize diceTick inp g = g0 at hti hkd ⊢
  have hmove : ∀ (idx : Fin 4), g0.hasRolled = true →
      ∃ b g2, MovePieceBySteps g0 g0.currentPlayer idx g0.rollResult = some (b, g2) ∧
        finishedCount g2 < 4 := by
    intro idx hr
    obtain ⟨hd1, hd6⟩ := hti.2.2.2 hr
    obtain ⟨b, g2, hm, -⟩ := move_total g0 g0.currentPlayer idx g0.rollResult hti.1 hd1 hd6
    have := finishedCount_turnFinish_le (turnFinish_move hm)
    exact ⟨b, g2, hm, by omega⟩
  have hturn : ∃ g2, turnHandling inp g0 = some g2 := by
    unfold turnHandling
    split
    · have hmouse : ∃ g2, (if inp.mouseReleased = true then
            if (!g0.hasRolled && inp.onRollBtn) = true then some (startRoll inp g0)
            else if g0.hasRolled = true then humanSelect inp g0 else some g0
          else some g0) = some g2 := by
        split
        · split
          · exact ⟨_, rfl⟩
          · split
            · rename_i hr
              unfold humanSelect
              dsimp only
              split
              · split
                · exact ⟨_, rfl⟩
                · rename_i idx _
                  obtain ⟨b, g2, hm, hlt⟩ := hmove idx hr
                  rw [hm]
                  dsimp only
                  split
                  · exact consumeRoll_some hlt
                  · exact ⟨_, rfl⟩
              · have hlt : finishedCount { g0 with hasRolled := false, rollResult := 0 } < 4 := by
                  have : finishedCount { g0 with hasRolled := false, rollResult := 0 } =
                      finishedCount g0 := rfl
                  omega
                obtain ⟨g1, h1, -⟩ := advanceTurn_some (exists_unfinished_of_count_lt hlt)
                exact ⟨g1, h1⟩
            · exact ⟨_, rfl⟩
        · exact ⟨_, rfl⟩
      obtain ⟨g2, h2⟩ := hmouse
      dsimp only
      rw [h2]
      exact ⟨_, rfl⟩
    · split
      · split
        · exact ⟨_, rfl⟩
        · split
          · rename_i hr
            unfold aiSelect
            dsimp only
            split
            · simp only [Option.some_bind]
              exact consumeRoll_some (by omega)
            · rename_i first rest _
              obtain ⟨r, hr1⟩ := aiPick_some inp hti hr (first :: rest) (first, -999)
              obtain ⟨b, g2, hm, hlt⟩ := hmove r.1 hr
              simp only [aiPick, hr1, Option.map_some', Option.some_bind, hm]
              exact consumeRoll_some hlt
          · exact ⟨_, rfl⟩
      · exact ⟨_, rfl⟩
  obtain ⟨g2, h2⟩ := hturn
  exact ⟨autoFinish g2, by rw [h2]; rfl⟩

/-! ## The claims about the frame loop -/

theorem consumeRoll_six {g g1 : Game} (h6 : g.rollResult = 6) (h : consumeRoll g = some g1) :
    g1.currentPlayer = g.currentPlayer ∧ g1.hasRolled = false ∧ g1.rollResult = 0 := by
  unfold consumeRoll at h
  simp only [h6, beq_self_eq_true, Bool.not_true, Bool.false_eq_true, if_false,
    Option.some.injEq] at h
  subst h
  exact ⟨rfl, rfl, rfl⟩

/-- The AI branch on a pending 6: whether or not a legal piece exists, the same
player stays on turn and the roll is cleared. -/
theorem aiSelect_six_keeps_player {inp : FrameInput} {g g1 : Game} (h6 : g.rollResult = 6)
    (h : aiSelect inp g = some g1) :
    g1.currentPlayer = g.currentPlayer ∧ g1.hasRolled = false ∧ g1.rollResult = 0 := by
  unfold aiSelect at h
  dsimp only at h
  split at h
  · simp only [Option.some_bind] at h
    exact consumeRoll_six h6 h
  · rename_i first rest _
    cases hp : aiPick inp g (first :: rest) first with
    | none => rw [hp] at h; simp at h
    | some pick =>
      rw [hp] at h
      simp only [Option.some_bind] at h
      cases hm : MovePieceBySteps g g.currentPlayer pick g.rollResult with
      | none => rw [hm] at h; simp at h
      | some r =>
        obtain ⟨b, g2⟩ := r
        rw [hm] at h
        simp only [Option.map_some', Option.some_bind] at h
        obtain ⟨a1, a2, -⟩ := move_turnFields g g2 _ _ _ b hm
        obtain ⟨b1, b2, b3⟩ := consumeRoll_six (a2.trans h6) h
        exact ⟨b1.trans a1, b2, b3⟩

/-- The human branch on a pending 6 when a legal piece is hit and the move is
accepted: the same player stays on turn and the roll is cleared. -/
theorem humanSelect_six_keeps_player {inp : FrameInput} {g g1 g2 : Game} {idx : Fin 4}
    (h6 : g.rollResult = 6)
    (hhit : (GetLegal g g.currentPlayer g.rollResult).find? inp.hit = some idx)
    (hm : MovePieceBySteps g g.currentPlayer idx g.rollResult = some (true, g2))
    (h : humanSelect inp g = some g1) :
    g1.currentPlayer = g.currentPlayer ∧ g1.hasRolled = false ∧ g1.rollResult = 0 := by
  unfold humanSelect at h
  dsimp only at h
  have hne : (GetLegal g g.currentPlayer g.rollResult).isEmpty = false := by
    cases hl : GetLegal g g.currentPlayer g.rollResult with
    | nil => rw [hl] at hhit; simp at hhit
    | cons a l => rfl
  simp only [hne, Bool.not_false, if_true, hhit, hm] at h
  obtain ⟨a1, a2, -⟩ := move_turnFields g g2 _ _ _ true hm
  obtain ⟨b1, b2, b3⟩ := consumeRoll_six (a2.trans h6) h
  exact ⟨b1.trans a1, b2, b3⟩

/-- C5, failing input.  After the play `sixNoMoveTrace` the human (player 3) has a
pending roll of 6 and no legal piece; the next click hands the turn to player 0
instead of leaving it with player 3. -/
theorem human_six_without_legal_piece_passes_turn :
    ∃ g : Game, Reachable g ∧ g.currentPlayer = 3 ∧ (g.players.get 3).isAI = false ∧
      g.hasRolled = true ∧ g.rollResult = 6 ∧ GetLegal g 3 6 = [] ∧
      (frame clickNowhere g).map (fun g1 => (g1.currentPlayer, g1.hasRolled, g1.rollResult))
        = some (0, false, 0) := by
  have h : (runFrames sixNoMoveTrace SetupPlayers).map
      (fun g => decide (g.currentPlayer = 3 ∧ (g.players.get 3).isAI = false ∧
        g.hasRolled = true ∧ g.rollResult = 6 ∧ GetLegal g 3 6 = [] ∧
        (frame clickNowhere g).map (fun g1 => (g1.currentPlayer, g1.hasRolled, g1.rollResult))
          = some (0, false, 0))) = some true := by decide
  obtain ⟨g, hg, hd⟩ := runFrames_some_of_map h
  exact ⟨g, reachable_runFrames _ _ _ Reachable.init hg, of_decide_eq_true hd⟩

/-- C6, failing input.  After the play `finishOnSixTrace` the human has finished
with a 6 as the last roll: a roll is awaited, and the player whose turn it is has
`finished == true`. -/
theorem finished_player_is_current :
    ∃ g : Game, Reachable g ∧ g.hasRolled = false ∧ g.diceRollingAnim = false ∧
      g.currentPlayer = 3 ∧ (g.players.get g.currentPlayer).finished = true := by
  have h : (runFrames finishOnSixTrace SetupPlayers).map
      (fun g => decide (g.hasRolled = false ∧ g.diceRollingAnim = false ∧
        g.currentPlayer = 3 ∧ (g.players.get g.currentPlayer).finished = true))
      = some true := by decide
  obtain ⟨g, hg, hd⟩ := runFrames_some_of_map h
  exact ⟨g, reachable_runFrames _ _ _ Reachable.init hg, of_decide_eq_true hd⟩

/-- C7. In every state at the top of the frame loop: unfinished players have
`finishPlace = 0`; the finished players carry exactly the ranks 1..k, each once,
where k is their number; `nextFinishPlace = k + 1`; k is never 3, and when k = 4
the four `finishPlace` values are a permutation of 1..4.  Within the next frame
both turn handling and the auto-finish step keep the ranks consistent and hand
them out in finishing order (`RankStep`), and if three players are finished after
turn handling the auto-finish step marks the remaining one finished with rank 4
without touching its pieces. -/
theorem finish_ranks_invariant (g : Game) (h : Reachable g) :
    (∀ p : Fin 4, (g.players.get p).finished = false → (g.players.get p).finishPlace = 0) ∧
    (∀ p : Fin 4, (g.players.get p).finished = true →
      1 ≤ (g.players.get p).finishPlace ∧ (g.players.get p).finishPlace ≤ finishedCount g) ∧
    (∀ n : Int, 1 ≤ n → n ≤ finishedCount g →
      ∃! p : Fin 4, (g.players.get p).finished = true ∧ (g.players.get p).finishPlace = n) ∧
    g.nextFinishPlace = finishedCount g + 1 ∧
    finishedCount g ≠ 3 ∧
    (finishedCount g = 4 →
      ∀ n : Int, 1 ≤ n → n ≤ 4 → ∃! p : Fin 4, (g.players.get p).finishPlace = n) ∧
    (∀ (inp : FrameInput) (g2 : Game), turnHandling inp (diceTick inp g) = some g2 →
      RankInv g2 ∧ RankStep g g2 ∧
      RankInv (autoFinish g2) ∧ RankStep g2 (autoFinish g2) ∧
      (finishedCount g2 = 3 → ∀ p : Fin 4, (g2.players.get p).finished = false →
        ((autoFinish g2).players.get p).finished = true ∧
        ((autoFinish g2).players.get p).finishPlace = 4 ∧
        ((autoFinish g2).players.get p).pieces = (g2.players.get p).pieces)) := by
  obtain ⟨hi, hc⟩ := reachable_rankInv h
  obtain ⟨h1, h2, h3, h4, h5⟩ := id hi
  have huniq : ∀ n : Int, 1 ≤ n → n ≤ finishedCount g →
      ∃! p : Fin 4, (g.players.get p).finished = true ∧ (g.players.get p).finishPlace = n := by
    intro n hn1 hn2
    obtain ⟨p, hp, hpl⟩ := h4 n hn1 hn2
    exact ⟨p, ⟨hp, hpl⟩, fun q hq => h3 q p hq.1 hp (hq.2.trans hpl.symm)⟩
  refine ⟨h1, h2, huniq, h5, ?_, ?_, ?_⟩
  · rcases hc with ⟨-, hk⟩ | ⟨-, hk⟩ <;> omega
  · intro hk n hn1 hn4
    obtain ⟨p, ⟨-, hpl⟩, hu⟩ := huniq n hn1 (by rw [hk]; exact hn4)
    exact ⟨p, hpl, fun q hq => hu q ⟨finishedCount_eq_four hk q, hq⟩⟩
  · intro inp g2 ht
    obtain ⟨a, b, c⟩ := turnHandling_mid hi hc ht
    obtain ⟨d, e, f, hpieces, hall⟩ := autoFinish_spec g2 a b
    refine ⟨a, c, d, f, fun hk p hp => ?_⟩
    have hfin := hall hk p
    obtain ⟨hlo, hhi⟩ := f.2.1 p hp hfin
    have hk4 : finishedCount (autoFinish g2) = 4 := finishedCount_of_all (hall hk)
    rw [a.2.2.2.2, hk] at hlo
    rw [d.2.2.2.2, hk4] at hhi
    refine ⟨hfin, ?_, hpieces p⟩
    push_cast at hlo hhi
    omega

/-- Witness of C7: the state in which the human has finished first is reachable;
there player 3 holds rank 1 and `nextFinishPlace` is 2. -/
theorem finish_ranks_invariant_witness :
    ∃ g : Game, Reachable g ∧ finishedCount g = 1 ∧
      (g.players.get 3).finished = true ∧ (g.players.get 3).finishPlace = 1 ∧
      g.nextFinishPlace = 2 := by
  have h : (runFrames finishOnSixTrace SetupPlayers).map
      (fun g => decide (finishedCount g = 1 ∧ (g.players.get 3).finished = true))
      = some true := by decide
  obtain ⟨g, hg, hd⟩ := runFrames_some_of_map h
  obtain ⟨hk, hf⟩ := of_decide_eq_true hd
  have hr := reachable_runFrames _ _ _ Reachable.init hg
  obtain ⟨-, h2, -, h5, -⟩ := finish_ranks_invariant g hr
  obtain ⟨hlo, hhi⟩ := h2 3 hf
  rw [hk] at hhi h5
  refine ⟨g, hr, hk, hf, ?_, ?_⟩
  · push_cast at hhi; omega
  · rw [h5]; rfl

/-! ## The shape of the track -/

/-- C11 as stated fails at the wrap: for `i = 42` the next index is
`(42 + 1) mod 43 = 0`, `outerPath[42]` is the cell (2, 6) and `outerPath[0]` is the
cell (1, 3); they differ by 1 in the row and by 3 in the column, so they are not
grid-adjacent. -/
theorem track_wrap_counterexample :
    (42 + 1) % 43 = 0 ∧ outerPath[42]? = some ⟨2, 6⟩ ∧ outerPath[0]? = some ⟨1, 3⟩ ∧
    ¬ gridAdjacent ⟨2, 6⟩ ⟨1, 3⟩ ∧ ¬ adjacentAt 42 ((42 + 1) % 43) := by
  decide

/-- C11 amended. The track is a path of grid-adjacent cells: for every `i` in
0..41 the cells `outerPath[i]` and `outerPath[i + 1]` are grid-adjacent.  It is not
closed at its ends: the last cell, index 42, is not grid-adjacent to the first
cell, index 0; it is grid-adjacent to the cell at index 3, so the cells 3..42
form a closed walk and the cells 0..2 lead into it. -/
theorem track_path_adjacent :
    (∀ i : Nat, i < 42 → adjacentAt i (i + 1)) ∧ ¬ adjacentAt 42 0 ∧ adjacentAt 42 3 := by
  decide

/-- Witness of the amended C11 at `i = 8`, the corner from the top row (1, 11) to
the right column (2, 11). -/
theorem track_path_adjacent_witness :
    outerPath[8]? = some ⟨1, 11⟩ ∧ outerPath[9]? = some ⟨2, 11⟩ ∧ adjacentAt 8 (8 + 1) :=
  ⟨by decide, by decide, track_path_adjacent.1 8 (by decide)⟩

/-! ## The turn-advance search -/

/-- With at least one unfinished player the turn-advance search, started at any
player, ends within four tests of its condition (at most 3 skips) at an
unfinished player. -/
theorem skipFinished_four {g : Game} (h : ∃ p : Fin 4, (g.players.get p).finished = false)
    (s : Fin 4) :
    ∃ nxt, skipFinished g 4 s = some nxt ∧ (g.players.get nxt).finished = false := by
  cases hs : skipFinished g 4 s with
  | none =>
    obtain ⟨p, hp⟩ := h
    have := all_finished_of_skipFinished_none g s hs p
    rw [hp] at this
    exact absurd this (by decide)
  | some nxt => exact ⟨nxt, rfl, skipFinished_unfinished g 4 s nxt hs⟩

set_option maxRecDepth 100000 in
/-- The state reached by the play `stuckTrace`, evaluated. -/
theorem stuckTrace_run :
    (runFrames stuckTrace SetupPlayers).map
      (fun g => decide ((∀ p : Fin 4, (g.players.get p).finished = true) ∧
        (g.players.get 1).finishPlace = 4 ∧ g.playersFinishedCount = 3 ∧
        g.currentPlayer = 2 ∧ (g.players.get 2).isAI = true ∧
        g.hasRolled = true ∧ g.rollResult = 1 ∧ GetLegal g 2 1 = [] ∧
        frame (aiTicks 1) g = none))
      = some true := by
  decide

/-- C12, failing input.  After the play `stuckTrace` all four players are
finished (player 1 by the auto-finish step, with rank 4 and all pieces at home),
and player 2 is on turn with a pending roll of 1 and no legal piece.  The
turn-advance search started from there finds `finished` at every test, whatever
the number of tests, and the frame in which the AI acts on the roll does not
complete. -/
theorem turn_advance_search_never_ends :
    ∃ g : Game, Reachable g ∧ (∀ p : Fin 4, (g.players.get p).finished = true) ∧
      (g.players.get 1).finishPlace = 4 ∧ g.playersFinishedCount = 3 ∧
      g.currentPlayer = 2 ∧ (g.players.get 2).isAI = true ∧
      g.hasRolled = true ∧ g.rollResult = 1 ∧ GetLegal g 2 1 = [] ∧
      (∀ fuel : Nat, skipFinished g fuel (g.currentPlayer + 1) = none) ∧
      frame (aiTicks 1) g = none := by
  obtain ⟨g, hg, hd⟩ := runFrames_some_of_map stuckTrace_run
  obtain ⟨h1, h2, h3, h4, h5, h6, h7, h8, h9⟩ := of_decide_eq_true hd
  exact ⟨g, reachable_runFrames _ _ _ Reachable.init hg, h1, h2, h3, h4, h5, h6, h7, h8,
    fun fuel => skipFinished_none_of_all_finished g h1 fuel _, h9⟩

end Ludo
